import Mathlib

/-!
Verification of the microservice-bottleneck-detector analytical pipeline.

Shallow embedding of the Python sources:
* `src/mbd/model/record.py`        → `LogRecord`
* `src/mbd/graph/graph_builder.py` → `GraphBuilder.build_graph`
* `src/mbd/graph/analyzer.py`      → `GraphAnalyzer.max_flow` / `GraphAnalyzer.min_cut`
  (the solver itself is `networkx`, absent from the repository; it is modelled
  from the specification, §4.2)
* `src/mbd/graph/bottleneck.py`    → `sliding_windows`, `records_in_window`,
  `analyze_time_windows`, `aggregate_bottlenecks`
* `src/scripts/run_bottleneck_analysis.py` → `batchAnalysis`
* `src/scripts/runtime_server.py` (`RuntimeAnalyzer.analyze_loop`) → publication model

Modelling conventions:
* ISO-8601 timestamp strings are modelled as `Option ℚ`: `some t` stands for a
  string that `datetime.fromisoformat` parses to the instant `t` (in seconds),
  `none` for an unparsable string.  `float` quantities are modelled as `ℚ`.
* Python code that can raise is embedded in `Except Unit`.
* Python `dict`s (insertion ordered) are association lists appending new keys
  at the end.
-/

set_option maxHeartbeats 1000000

/-- Embeds `LogRecord` (src/mbd/model/record.py). -/
structure LogRecord where
  timestamp : Option ℚ
  src_service : String
  src_endpoint : String
  dst_service : String
  dst_endpoint : String
  latency : ℚ
deriving DecidableEq

/-- Python `max()` over a non-empty list (`0` on `[]`, a case the code never hits). -/
def listMax : List ℚ → ℚ
  | [] => 0
  | t :: rest => rest.foldl max t

/-- Python `min()` over a non-empty list (`0` on `[]`, a case the code never hits). -/
def listMin : List ℚ → ℚ
  | [] => 0
  | t :: rest => rest.foldl min t

/-- The timestamps that parse, in record order (graph_builder.py lines 32-38:
parse failures are swallowed and only skip the append). -/
def timestampsOf (records : List LogRecord) : List ℚ :=
  records.filterMap (fun r => r.timestamp)

/-- The `duration` computed by `build_graph` (graph_builder.py lines 46-52):
`max - min` over the parseable timestamps, replaced by `1.0` when that
difference is `<= 0` or when no timestamp parsed. -/
def observationSpan (records : List LogRecord) : ℚ :=
  let ts := timestampsOf records
  if ts.isEmpty then 1
  else
    let d := listMax ts - listMin ts
    if d ≤ 0 then 1 else d

/-- Pass-1 accumulator per `(src, dst)` edge: `times` list and `count`
(graph_builder.py lines 40-44). -/
structure EdgeAccum where
  times : List ℚ
  count : Nat
deriving DecidableEq

/-- One record observed on edge `(src, dst)`: append the latency and bump the
count, or create the edge at the end of the (insertion-ordered) edge list. -/
def addCall : List ((String × String) × EdgeAccum) → String → String → ℚ →
    List ((String × String) × EdgeAccum)
  | [], src, dst, lat => [((src, dst), ⟨[lat], 1⟩)]
  | (k, a) :: rest, src, dst, lat =>
    if k = (src, dst) then (k, ⟨a.times ++ [lat], a.count + 1⟩) :: rest
    else (k, a) :: addCall rest src dst lat

/-- Pass 1 of `build_graph` (graph_builder.py lines 27-44). -/
def accumEdges (records : List LogRecord) : List ((String × String) × EdgeAccum) :=
  records.foldl (fun acc r => addCall acc r.src_service r.dst_service r.latency) []

/-- `networkx` node bookkeeping: a node is appended the first time it is seen. -/
def insertNode (ns : List String) (n : String) : List String :=
  if n ∈ ns then ns else ns ++ [n]

/-- The node list of the built graph: endpoints in first-seen order,
as `nx.DiGraph.add_edge` registers them. -/
def nodesOf (records : List LogRecord) : List String :=
  records.foldl (fun ns r => insertNode (insertNode ns r.src_service) r.dst_service) []

/-- Derived per-edge fields (graph_builder.py lines 54-67). -/
structure EdgeData where
  times : List ℚ
  count : Nat
  avg_latency : ℚ
  throughput : ℚ
  capacity_latency : ℚ
  capacity_throughput : ℚ
  capacity : ℚ
deriving DecidableEq

/-- Pass 2 of `build_graph`: derive the metric fields of one edge from its
accumulated latencies, count and the global observation span. -/
def mkEdgeData (duration : ℚ) (a : EdgeAccum) : EdgeData :=
  let avg := a.times.sum / (a.times.length : ℚ)
  let throughput := (a.count : ℚ) / duration
  let capLat := if 0 < avg then 1 / avg else 0
  { times := a.times
    count := a.count
    avg_latency := avg
    throughput := throughput
    capacity_latency := capLat
    capacity_throughput := throughput
    capacity := if 0 < throughput then throughput else capLat }

/-- The directed service graph: insertion-ordered edge association list plus
the node list. -/
structure DiGraph where
  edges : List ((String × String) × EdgeData)
  nodes : List String
deriving DecidableEq

/-- Per-node fields stored by pass 3 (graph_builder.py lines 69-82). -/
structure NodeData where
  load : ℚ
  in_throughput : ℚ
  out_throughput : ℚ
deriving DecidableEq

/-- Sum of throughputs over incoming edges of `n` (graph_builder.py lines 73-74). -/
def DiGraph.inThroughput (G : DiGraph) (n : String) : ℚ :=
  ((G.edges.filter (fun e => e.1.2 == n)).map (fun e => e.2.throughput)).sum

/-- Sum of throughputs over outgoing edges of `n` (graph_builder.py lines 75-76). -/
def DiGraph.outThroughput (G : DiGraph) (n : String) : ℚ :=
  ((G.edges.filter (fun e => e.1.1 == n)).map (fun e => e.2.throughput)).sum

/-- The node attributes stored by `build_graph` (graph_builder.py lines 78-82). -/
def DiGraph.nodeData (G : DiGraph) (n : String) : NodeData :=
  { load := G.inThroughput n + G.outThroughput n
    in_throughput := G.inThroughput n
    out_throughput := G.outThroughput n }

namespace GraphBuilder

/-- Embeds `GraphBuilder.build_graph` (graph_builder.py lines 23-84). -/
def build_graph (records : List LogRecord) : DiGraph :=
  let acc := accumEdges records
  let duration := observationSpan records
  { edges := acc.map (fun e => (e.1, mkEdgeData duration e.2))
    nodes := nodesOf records }

end GraphBuilder

/-- Association-list lookup (insertion-ordered dict access). -/
def assocFind? {α : Type} (k : String × String) :
    List ((String × String) × α) → Option α
  | [] => none
  | (kx, x) :: rest => if kx = k then some x else assocFind? k rest

/-- Edge attribute lookup. -/
def DiGraph.edgeData? (G : DiGraph) (u v : String) : Option EdgeData :=
  assocFind? (u, v) G.edges

/-- `G[u][v]["times"]`, `[]` when the edge is absent. -/
def DiGraph.edgeTimes (G : DiGraph) (u v : String) : List ℚ :=
  (G.edgeData? u v).elim [] (fun d => d.times)

/-- `G[u][v]["count"]`, `0` when the edge is absent. -/
def DiGraph.edgeCount (G : DiGraph) (u v : String) : Nat :=
  (G.edgeData? u v).elim 0 (fun d => d.count)

/-- The capacity attribute name handed to the solver (`--capacity` flag; the
three attributes `build_graph` stores). -/
inductive CapacityAttr
  | capacity
  | capacity_throughput
  | capacity_latency
deriving DecidableEq

/-- Select the stored attribute. -/
def EdgeData.capAttr (d : EdgeData) : CapacityAttr → ℚ
  | .capacity => d.capacity
  | .capacity_throughput => d.capacity_throughput
  | .capacity_latency => d.capacity_latency

/-- The capacity function the solver sees: the chosen attribute on edges of
`G`, `0` on non-edges. -/
def DiGraph.capFun (G : DiGraph) (attr : CapacityAttr) : String → String → ℚ :=
  fun u v => (G.edgeData? u v).elim 0 (fun d => d.capAttr attr)

/-- `G.successors(u)` (iteration order of the edge list). -/
def DiGraph.successors (G : DiGraph) (u : String) : List String :=
  (G.edges.filter (fun e => e.1.1 == u)).map (fun e => e.1.2)

namespace FlowSolver

/-! ### Max-flow / min-cut solver

Modelled from the spec: `GraphAnalyzer.max_flow` / `min_cut` delegate to
`nx.maximum_flow` / `nx.minimum_cut`, whose source is not part of this
repository.  Spec §4.2 requires "a correct augmenting-path maximum-flow
algorithm over non-negative rational capacities, terminating in finitely many
augmentations", with the minimum cut derived "from the residual graph of the
converged solution: reachableSet = nodes reachable from source in residual
graph; otherSet = complement".  We model it as a Ford-Fulkerson loop over the
net-flow formulation (`f u v = - f v u`), with an explicit augmentation budget
(`fuel`); exhausting the budget models the guarded `AlgorithmFailure` of §7. -/

/-- Residual capacity of the current net flow. -/
def resid (c f : String → String → ℚ) : String → String → ℚ :=
  fun u v => c u v - f u v

/-- First success of an option-valued function along a list. -/
def firstSome? {α β : Type} (f : α → Option β) : List α → Option β
  | [] => none
  | x :: xs => (f x).elim (firstSome? f xs) (fun b => some b)

/-- Depth-first search for an augmenting path from `u` to `t` whose later
nodes are drawn (without repetition) from `allowed`.  The structural `fuel`
argument dominates `allowed.length` at every call site. -/
def findAugPathF (r : String → String → ℚ) :
    Nat → List String → String → String → Option (List String)
  | 0, _, _, _ => none
  | n + 1, allowed, u, t =>
    if u = t then some [u]
    else
      firstSome? (fun v =>
        if 0 < r u v then
          (findAugPathF r n (allowed.erase v) v t).map (fun p => u :: p)
        else none) allowed

/-- Augmenting-path search with a sufficient budget. -/
def findAugPath (r : String → String → ℚ) (allowed : List String) (u t : String) :
    Option (List String) :=
  findAugPathF r (allowed.length + 1) allowed u t

/-- Bottleneck residual capacity along a path (`0` on degenerate paths). -/
def pathMin (r : String → String → ℚ) : List String → ℚ
  | [u, v] => r u v
  | u :: v :: rest => min (r u v) (pathMin r (v :: rest))
  | _ => 0

/-- Push `b` units across the single arc `(u, v)` (and pull them back across
`(v, u)`, keeping the net flow skew-symmetric). -/
def augEdge (f : String → String → ℚ) (u v : String) (b : ℚ) :
    String → String → ℚ :=
  fun x y =>
    f x y + (if x = u ∧ y = v then b else 0) - (if x = v ∧ y = u then b else 0)

/-- Push `b` units along every consecutive arc of a path. -/
def augPath (f : String → String → ℚ) : List String → ℚ → String → String → ℚ
  | u :: v :: rest, b => augPath (augEdge f u v b) (v :: rest) b
  | _, _ => f

/-- The zero flow the loop starts from. -/
def flowZero : String → String → ℚ := fun _ _ => 0

/-- The Ford-Fulkerson loop: repeatedly augment until no residual path from
`s` to `t` remains, giving up (`none`) when the budget runs out. -/
def ffLoop (c : String → String → ℚ) (V : List String) (s t : String) :
    Nat → (String → String → ℚ) → Option (String → String → ℚ)
  | 0, _ => none
  | fuel + 1, f =>
    (findAugPath (resid c f) (V.erase s) s t).elim (some f)
      (fun p => ffLoop c V s t fuel (augPath f p (pathMin (resid c f) p)))

/-- Net flow out of the source. -/
def flowValue (V : List String) (f : String → String → ℚ) (s : String) : ℚ :=
  (V.map (fun v => f s v)).sum

/-- `reachableSet`: the nodes of `V` reachable from `s` in the residual graph
of `f`. -/
def reachable (c : String → String → ℚ) (V : List String) (s : String)
    (f : String → String → ℚ) : List String :=
  V.filter (fun v => (findAugPath (resid c f) (V.erase s) s v).isSome)

/-- Total capacity of the arcs crossing from `S` into `T`. -/
def cutCapacity (c : String → String → ℚ) (S T : List String) : ℚ :=
  (S.map (fun u => (T.map (fun v => c u v)).sum)).sum

/-- `RPath r allowed u t`: a simple residual path leads from `u` to `t`,
its later nodes drawn without repetition from `allowed`. -/
inductive RPath (r : String → String → ℚ) : List String → String → String → Prop
  | refl (allowed t) : RPath r allowed t t
  | step (allowed u v t) : v ∈ allowed → 0 < r u v →
      RPath r (allowed.erase v) v t → RPath r allowed u t

end FlowSolver

namespace GraphAnalyzer

/-- Embeds `GraphAnalyzer.max_flow` (analyzer.py lines 19-22); only the flow
value is consumed downstream, so the per-edge flow dictionary is dropped.
`none` models the solver raising (spec §7 `AlgorithmFailure` guard). -/
def max_flow (G : DiGraph) (source sink : String) (attr : CapacityAttr)
    (fuel : Nat) : Option ℚ :=
  (FlowSolver.ffLoop (G.capFun attr) G.nodes source sink fuel FlowSolver.flowZero).map
    (fun f => FlowSolver.flowValue G.nodes f source)

/-- Embeds `GraphAnalyzer.min_cut` (analyzer.py lines 24-27):
`(cut value, (reachable set, complement))` per spec §4.2. -/
def min_cut (G : DiGraph) (source sink : String) (attr : CapacityAttr)
    (fuel : Nat) : Option (ℚ × List String × List String) :=
  (FlowSolver.ffLoop (G.capFun attr) G.nodes source sink fuel FlowSolver.flowZero).map
    (fun f =>
      let S := FlowSolver.reachable (G.capFun attr) G.nodes source f
      let T := G.nodes.filter (fun v => decide (v ∉ S))
      (FlowSolver.cutCapacity (G.capFun attr) S T, S, T))

end GraphAnalyzer

/-! ### Sliding windows and per-window analysis (bottleneck.py) -/

/-- `parse_iso_z` (bottleneck.py lines 14-15): raises on an unparsable
timestamp. -/
def parse_iso_z : Option ℚ → Except Unit ℚ
  | some t => .ok t
  | none => .error ()

/-- Left-to-right effectful map over `Except`, the shape of every Python
`for`-loop that may raise mid-iteration. -/
def mapME (f : α → Except Unit β) : List α → Except Unit (List β)
  | [] => .ok []
  | x :: xs =>
    (f x).bind (fun y => (mapME f xs).bind (fun ys => .ok (y :: ys)))

/-- The `while current <= end` loop of `sliding_windows` (bottleneck.py lines
25-29), fuel-structured; the fuel below always suffices.  A `step` of `0`
makes the Python loop diverge; the embedding returns `[]` there and every
theorem assumes `0 < step`. -/
def windowStartsF (e : ℚ) (step : Nat) : Nat → ℚ → List ℚ
  | 0, _ => []
  | n + 1, current =>
    if 0 < step ∧ current ≤ e then current :: windowStartsF e step n (current + step)
    else []

/-- Window start instants: `start, start+step, ...` while `current ≤ e`. -/
def windowStarts (e : ℚ) (step : Nat) (current : ℚ) : List ℚ :=
  windowStartsF e step (⌊(e - current) / (step : ℚ)⌋.toNat + 2) current

/-- Embeds `sliding_windows` (bottleneck.py lines 18-29): no records means no
windows; otherwise every record's timestamp is parsed (an unparsable one
raises), and windows `[current, current + window]` advance from the minimum
timestamp by `step` while `current ≤ max`. -/
def sliding_windows (records : List LogRecord) (window_seconds step_seconds : Nat) :
    Except Unit (List (ℚ × ℚ)) :=
  if records.isEmpty then .ok []
  else
    (mapME (fun r => parse_iso_z r.timestamp) records).bind (fun times =>
      .ok ((windowStarts (listMax times) step_seconds (listMin times)).map
        (fun c => (c, c + (window_seconds : ℚ)))))

/-- Embeds `records_in_window` (bottleneck.py lines 32-38): parses every
record's timestamp (raising on failure) and keeps those with
`start ≤ ts ≤ end`. -/
def records_in_window (records : List LogRecord) (a b : ℚ) :
    Except Unit (List LogRecord) :=
  (mapME (fun r => (parse_iso_z r.timestamp).map (fun t => (r, t))) records).bind
    (fun pairs =>
      .ok ((pairs.filter (fun p => decide (a ≤ p.2) && decide (p.2 ≤ b))).map (fun p => p.1)))

/-- One per-window result dict (bottleneck.py line 75).  The sentinel dicts of
lines 50/57/65 carry no `"cut_value"` key; downstream reads it with
`w.get("cut_value", 0.0)`, so the sentinel stores `0` here. -/
structure WindowResult where
  start : ℚ
  stop : ℚ
  flow : ℚ
  min_cut : List (String × String)
  cut_value : ℚ
deriving DecidableEq

/-- The zero-flow / empty-cut sentinel `{"flow": 0.0, "min_cut": []}`. -/
def sentinelResult (a b : ℚ) : WindowResult :=
  { start := a, stop := b, flow := 0, min_cut := [], cut_value := 0 }

/-- The cut-edge collection loop (bottleneck.py lines 69-73):
`for u in S: for v in G.successors(u): if v in T: append (u, v)`. -/
def collectCut (G : DiGraph) (S T : List String) : List (String × String) :=
  S.flatMap (fun u =>
    ((G.successors u).filter (fun v => decide (v ∈ T))).map (fun v => (u, v)))

/-- The body of the per-window loop of `analyze_time_windows` (bottleneck.py
lines 47-75): empty selection, missing source/sink, or solver failure yield
the sentinel. -/
def analyzeWindow (records : List LogRecord) (source sink : String)
    (attr : CapacityAttr) (fuel : Nat) (w : ℚ × ℚ) : Except Unit WindowResult :=
  (records_in_window records w.1 w.2).bind (fun wrecs =>
    if wrecs.isEmpty then .ok (sentinelResult w.1 w.2)
    else
      let G := GraphBuilder.build_graph wrecs
      if ¬ (source ∈ G.nodes ∧ sink ∈ G.nodes) then .ok (sentinelResult w.1 w.2)
      else
        .ok ((GraphAnalyzer.max_flow G source sink attr fuel).elim (sentinelResult w.1 w.2)
          (fun fv =>
            (GraphAnalyzer.min_cut G source sink attr fuel).elim (sentinelResult w.1 w.2)
              (fun cst =>
                { start := w.1, stop := w.2, flow := fv,
                  min_cut := collectCut G cst.2.1 cst.2.2, cut_value := cst.1 }))))

/-- Embeds `analyze_time_windows` (bottleneck.py lines 41-77). -/
def analyze_time_windows (records : List LogRecord) (source sink : String)
    (window_seconds step_seconds : Nat) (attr : CapacityAttr) (fuel : Nat) :
    Except Unit (List WindowResult) :=
  (sliding_windows records window_seconds step_seconds).bind
    (fun ws => mapME (analyzeWindow records source sink attr fuel) ws)

/-! ### Aggregation (bottleneck.py lines 80-87) -/

/-- `counter[e] = counter.get(e, 0) + 1` on an insertion-ordered dict. -/
def bump : List ((String × String) × Nat) → (String × String) →
    List ((String × String) × Nat)
  | [], e => [(e, 1)]
  | (k, c) :: rest, e =>
    if k = e then (k, c + 1) :: rest else (k, c) :: bump rest e

/-- The counting loop of `aggregate_bottlenecks` (lines 82-85). -/
def buildCounter (window_results : List WindowResult) :
    List ((String × String) × Nat) :=
  window_results.foldl (fun acc w => w.min_cut.foldl bump acc) []

/-- Dict value lookup, `0` when absent. -/
def lookupCount (counter : List ((String × String) × Nat)) (e : String × String) : Nat :=
  (assocFind? e counter).elim 0 (fun c => c)

/-- First-seen deduplication order of a sequence of edges (the key order of an
insertion-ordered dict fed that sequence). -/
def firstSeenList (l : List (String × String)) : List (String × String) :=
  l.foldl (fun acc e => if e ∈ acc then acc else acc ++ [e]) []

/-- Stable-descending insertion: place `x` before the first entry whose count
is `≤ x`'s.  (`sorted(..., reverse=True)` is stable, so its output is the
unique permutation that is descending with ties in input order; insertion sort
below produces exactly that.) -/
def insertDesc (x : (String × String) × Nat) :
    List ((String × String) × Nat) → List ((String × String) × Nat)
  | [] => [x]
  | y :: ys => if x.2 < y.2 then y :: insertDesc x ys else x :: y :: ys

/-- Stable descending sort by count. -/
def isortDesc : List ((String × String) × Nat) → List ((String × String) × Nat)
  | [] => []
  | x :: xs => insertDesc x (isortDesc xs)

/-- Embeds `aggregate_bottlenecks` (bottleneck.py lines 80-87): count, sort
descending by count (stable), truncate to `top_k`. -/
def aggregate_bottlenecks (window_results : List WindowResult) (top_k : Nat) :
    List ((String × String) × Nat) :=
  (isortDesc (buildCounter window_results)).take top_k

/-- Embeds the batch pipeline of `run_bottleneck_analysis.main` (lines 34-40):
parse, sliding-window analysis, aggregation with `top_k=20`.  An uncaught
exception from the analysis aborts the run (`Except.error`). -/
def batchAnalysis (records : List LogRecord) (source sink : String)
    (window_seconds step_seconds : Nat) (attr : CapacityAttr) (fuel : Nat) :
    Except Unit (List WindowResult × List ((String × String) × Nat)) :=
  (analyze_time_windows records source sink window_seconds step_seconds attr fuel).bind
    (fun results => .ok (results, aggregate_bottlenecks results 20))

/-! ### Live-mode publication model (runtime_server.py, `analyze_loop`)

The analysis cycle publishes under `self.lock` twice: lines 77-79 set
`latest_windows` and `latest_bottlenecks` together, and — only when `windows`
is non-empty and graph building succeeded — lines 138-139 later set
`latest_graph` in a separate critical section.  Readers (`/alerts`,
`/graph-data`) take the lock per request.  We model the shared triple by the
cycle number each field was last published from, and a cycle as its sequence
of atomic critical sections. -/

/-- Cycle number each published field currently carries. -/
structure LiveTriple where
  windows : Nat
  bottlenecks : Nat
  graphProj : Nat
deriving DecidableEq

/-- One atomic critical section of `analyze_loop`. -/
inductive PubStep
  | results (cycle : Nat)
  | graphView (cycle : Nat)
deriving DecidableEq

/-- Effect of one critical section on the shared triple. -/
def applyPub : LiveTriple → PubStep → LiveTriple
  | st, .results n => { st with windows := n, bottlenecks := n }
  | st, .graphView n => { st with graphProj := n }

/-- The critical sections cycle `n` performs: windows+bottlenecks always
(lines 77-79), the graph projection only when the window list is non-empty
(lines 85-139). -/
def cycleSteps (n : Nat) (hasWindows : Bool) : List PubStep :=
  .results n :: (if hasWindows then [.graphView n] else [])

/-- Every state a reader can observe while `steps` run: the initial state and
the state after each critical section. -/
def observations (init : LiveTriple) (steps : List PubStep) : List LiveTriple :=
  steps.scanl applyPub init

/-- A triple published wholly by cycle `n`. -/
def uniformTriple (n : Nat) : LiveTriple :=
  { windows := n, bottlenecks := n, graphProj := n }

/-! ### Proof-support definitions -/

/-- Pass-1 accumulator lookup. -/
def lookupAccum (acc : List ((String × String) × EdgeAccum)) (k : String × String) :
    Option EdgeAccum :=
  assocFind? k acc

/-- Folding further records of one edge into an accumulator entry. -/
def mergeAccum (o : Option EdgeAccum) (l : List LogRecord) : Option EdgeAccum :=
  match o with
  | some a => some ⟨a.times ++ l.map (fun r => r.latency), a.count + l.length⟩
  | none =>
    match l with
    | [] => none
    | _ => some ⟨l.map (fun r => r.latency), l.length⟩

/-- Consecutive arcs of a path. -/
def consecPairs (p : List String) : List (String × String) :=
  p.zip p.tail

/-- Occurrence count of an arc in a pair list (describes the effect of
`FlowSolver.augPath` on one arc). -/
def cnt (a : String × String) (l : List (String × String)) : Nat :=
  l.foldr (fun q n => (if q = a then 1 else 0) + n) 0

/-- The flow invariants the Ford-Fulkerson loop maintains: skew symmetry,
capacity constraint, and conservation at inner nodes. -/
structure IsFlow (c : String → String → ℚ) (V : List String) (s t : String)
    (f : String → String → ℚ) : Prop where
  skew : ∀ u v, f u v = - f v u
  capLe : ∀ u v, f u v ≤ c u v
  conserve : ∀ u, u ∈ V → u ≠ s → u ≠ t → (V.map (fun w => f u w)).sum = 0


/-! ### Builder lemmas -/

theorem lookupAccum_addCall_ne (acc : List ((String × String) × EdgeAccum))
    (s d : String) (lat : ℚ) (k : String × String) (h : k ≠ (s, d)) :
    lookupAccum (addCall acc s d lat) k = lookupAccum acc k := by
  have h2 : ¬ (s, d) = k := fun he => h he.symm
  induction acc with
  | nil => simp [lookupAccum, addCall, assocFind?, h2]
  | cons x rest ih =>
    rcases x with ⟨kx, a⟩
    by_cases hk : kx = (s, d)
    · subst hk
      simp [addCall, lookupAccum, assocFind?, h2]
    · by_cases hkk : kx = k
      · subst hkk
        simp [addCall, hk, lookupAccum, assocFind?, h]
      · simpa [addCall, hk, lookupAccum, assocFind?, hkk] using ih

theorem lookupAccum_addCall_eq (acc : List ((String × String) × EdgeAccum))
    (s d : String) (lat : ℚ) :
    lookupAccum (addCall acc s d lat) (s, d) =
      some (match lookupAccum acc (s, d) with
            | none => ⟨[lat], 1⟩
            | some a => ⟨a.times ++ [lat], a.count + 1⟩) := by
  induction acc with
  | nil => simp [lookupAccum, addCall, assocFind?]
  | cons x rest ih =>
    rcases x with ⟨kx, a⟩
    by_cases hk : kx = (s, d)
    · subst hk
      simp [addCall, lookupAccum, assocFind?]
    · simpa [addCall, hk, lookupAccum, assocFind?] using ih

theorem mergeAccum_nil (o : Option EdgeAccum) : mergeAccum o [] = o := by
  cases o with
  | none => rfl
  | some a => simp [mergeAccum]

theorem mergeAccum_cons (o : Option EdgeAccum) (r : LogRecord) (l : List LogRecord) :
    mergeAccum o (r :: l) =
      mergeAccum (some (match o with
        | none => ⟨[r.latency], 1⟩
        | some a => ⟨a.times ++ [r.latency], a.count + 1⟩)) l := by
  cases o with
  | none => simp [mergeAccum, Nat.add_comm]
  | some a =>
    simp only [mergeAccum, List.map_cons, List.length_cons, Option.some.injEq,
      EdgeAccum.mk.injEq]
    constructor
    · simp
    · omega

theorem lookupAccum_foldl (k : String × String) (recs : List LogRecord) :
    ∀ acc,
      lookupAccum (recs.foldl (fun a r => addCall a r.src_service r.dst_service r.latency) acc) k
        = mergeAccum (lookupAccum acc k)
            (recs.filter (fun r => (r.src_service, r.dst_service) == k)) := by
  induction recs with
  | nil => intro acc; simp [mergeAccum_nil]
  | cons r rs ih =>
    intro acc
    by_cases hr : (r.src_service, r.dst_service) = k
    · have hb : ((r.src_service, r.dst_service) == k) = true := by simpa using hr
      rw [List.foldl_cons, ih]
      simp only [List.filter_cons, hb, if_true]
      rw [mergeAccum_cons, ← hr, lookupAccum_addCall_eq]
    · have hb : ((r.src_service, r.dst_service) == k) = false := by simpa using hr
      rw [List.foldl_cons, ih,
        lookupAccum_addCall_ne _ _ _ _ _ (fun he => hr he.symm)]
      simp only [List.filter_cons, hb]
      simp

theorem assocFind?_map_keyed {α β : Type} (acc : List ((String × String) × α))
    (g : α → β) (k : String × String) :
    assocFind? k (acc.map (fun e => (e.1, g e.2)))
      = (assocFind? k acc).map g := by
  induction acc with
  | nil => rfl
  | cons x rest ih =>
    by_cases hx : x.1 = k
    · simp [assocFind?, hx]
    · simp [assocFind?, hx, ih]

theorem build_edgeData? (recs : List LogRecord) (s d : String) :
    (GraphBuilder.build_graph recs).edgeData? s d
      = (lookupAccum (accumEdges recs) (s, d)).map (mkEdgeData (observationSpan recs)) := by
  unfold GraphBuilder.build_graph DiGraph.edgeData? lookupAccum
  simp only [assocFind?_map_keyed]

theorem timestampsOf_filter_parseable (recs : List LogRecord) :
    timestampsOf (recs.filter (fun r => r.timestamp.isSome)) = timestampsOf recs := by
  induction recs with
  | nil => rfl
  | cons r rs ih =>
    cases h : r.timestamp with
    | none => simpa [timestampsOf, List.filter_cons, h] using ih
    | some t => simpa [timestampsOf, List.filter_cons, h] using ih

/-- **C10**: `build_graph` includes every record in its `(source, dest)` edge's
latency list and call count, timestamp parseability notwithstanding; an
unparsable timestamp is excluded only from the observation-span computation
(the span of the record list equals the span of its parseable sublist), so
such records still enlarge `count` and hence the throughput-derived
capacities. -/
theorem unparsable_timestamp_still_counted (recs : List LogRecord) (s d : String) :
    (GraphBuilder.build_graph recs).edgeTimes s d
        = (recs.filter (fun r => (r.src_service, r.dst_service) == (s, d))).map
            (fun r => r.latency) ∧
    (GraphBuilder.build_graph recs).edgeCount s d
        = (recs.filter (fun r => (r.src_service, r.dst_service) == (s, d))).length ∧
    observationSpan recs = observationSpan (recs.filter (fun r => r.timestamp.isSome)) ∧
    (∀ dd, (GraphBuilder.build_graph recs).edgeData? s d = some dd →
        dd.throughput = (dd.count : ℚ) / observationSpan recs) := by
  have hlook : lookupAccum (accumEdges recs) (s, d)
      = mergeAccum none (recs.filter (fun r => (r.src_service, r.dst_service) == (s, d))) := by
    simpa [lookupAccum] using lookupAccum_foldl (s, d) recs []
  have hed := build_edgeData? recs s d
  rw [hlook] at hed
  refine ⟨?_, ?_, ?_, ?_⟩
  · cases hfl : recs.filter (fun r => (r.src_service, r.dst_service) == (s, d)) with
    | nil =>
      rw [hfl] at hed
      simp [DiGraph.edgeTimes, hed, mergeAccum]
    | cons r0 l =>
      rw [hfl] at hed
      simp [DiGraph.edgeTimes, hed, mergeAccum, mkEdgeData]
  · cases hfl : recs.filter (fun r => (r.src_service, r.dst_service) == (s, d)) with
    | nil =>
      rw [hfl] at hed
      simp [DiGraph.edgeCount, hed, mergeAccum]
    | cons r0 l =>
      rw [hfl] at hed
      simp [DiGraph.edgeCount, hed, mergeAccum, mkEdgeData]
  · rw [observationSpan, observationSpan, timestampsOf_filter_parseable]
  · intro dd hdd
    rw [hed] at hdd
    cases hfl : recs.filter (fun r => (r.src_service, r.dst_service) == (s, d)) with
    | nil => rw [hfl] at hdd; simp [mergeAccum] at hdd
    | cons r0 l =>
      rw [hfl] at hdd
      simp only [mergeAccum, Option.map_some'] at hdd
      cases hdd
      simp [mkEdgeData]

/-- **C6**: on every edge of a built graph, `capacity_latency` is `1/avg`
when `avg > 0` and `0` otherwise, `capacity_throughput` is the throughput,
and `capacity` is the throughput when positive, else `capacity_latency`. -/
theorem edge_capacity_fields (recs : List LogRecord) (k : String × String)
    (dd : EdgeData) (h : (k, dd) ∈ (GraphBuilder.build_graph recs).edges) :
    dd.capacity_latency = (if 0 < dd.avg_latency then 1 / dd.avg_latency else 0) ∧
    dd.capacity_throughput = dd.throughput ∧
    dd.capacity = (if 0 < dd.throughput then dd.throughput else dd.capacity_latency) := by
  unfold GraphBuilder.build_graph at h
  simp only [List.mem_map] at h
  obtain ⟨e, _, heq⟩ := h
  have hdd : dd = mkEdgeData (observationSpan recs) e.2 := by
    have := congrArg Prod.snd heq
    simpa using this.symm
  subst hdd
  refine ⟨rfl, rfl, rfl⟩

/-- Witness for C6 at a one-record log. -/
theorem edge_capacity_fields_witness :
    ((("A", "B"), mkEdgeData 1 ⟨[10], 1⟩)
        ∈ (GraphBuilder.build_graph [⟨some 0, "A", "a", "B", "b", (10 : ℚ)⟩]).edges) ∧
    ((mkEdgeData 1 ⟨[10], 1⟩).capacity_latency
        = (if 0 < (mkEdgeData 1 ⟨[10], 1⟩).avg_latency
           then 1 / (mkEdgeData 1 ⟨[10], 1⟩).avg_latency else 0) ∧
     (mkEdgeData 1 ⟨[10], 1⟩).capacity_throughput = (mkEdgeData 1 ⟨[10], 1⟩).throughput ∧
     (mkEdgeData 1 ⟨[10], 1⟩).capacity
        = (if 0 < (mkEdgeData 1 ⟨[10], 1⟩).throughput
           then (mkEdgeData 1 ⟨[10], 1⟩).throughput
           else (mkEdgeData 1 ⟨[10], 1⟩).capacity_latency)) :=
  have hmem : (("A", "B"), mkEdgeData 1 ⟨[10], 1⟩)
      ∈ (GraphBuilder.build_graph [⟨some 0, "A", "a", "B", "b", (10 : ℚ)⟩]).edges := by
    norm_num [GraphBuilder.build_graph, accumEdges, addCall, observationSpan,
      timestampsOf, listMax, listMin, nodesOf, insertNode, List.filterMap_cons]
  ⟨hmem, edge_capacity_fields [⟨some 0, "A", "a", "B", "b", (10 : ℚ)⟩]
      ("A", "B") (mkEdgeData 1 ⟨[10], 1⟩) hmem⟩

/-- **C2 counterexample**: two records half a second apart.  The parseable
timestamps span `1/2 s`, `build_graph` keeps the span `1/2` (below the claimed
floor of `1.0`), and the resulting edge throughput is `1/(1/2) = 2`, not `1`. -/
theorem observationSpan_no_floor_counterexample :
    observationSpan [⟨some 0, "A", "a", "B", "b", 10⟩, ⟨some (1/2), "B", "b", "C", "c", 5⟩]
        = 1 / 2 ∧
    ¬ (1 ≤ observationSpan
        [⟨some 0, "A", "a", "B", "b", 10⟩, ⟨some (1/2), "B", "b", "C", "c", 5⟩]) ∧
    ((GraphBuilder.build_graph
        [⟨some 0, "A", "a", "B", "b", 10⟩, ⟨some (1/2), "B", "b", "C", "c", 5⟩]).edgeData?
          "A" "B").map (fun d => d.throughput) = some 2 := by
  refine ⟨?_, ?_, ?_⟩
  · norm_num [observationSpan, timestampsOf, listMax, listMin, List.filterMap_cons]
  · norm_num [observationSpan, timestampsOf, listMax, listMin, List.filterMap_cons]
  · norm_num [GraphBuilder.build_graph, accumEdges, addCall, observationSpan,
      timestampsOf, listMax, listMin, List.filterMap_cons, DiGraph.edgeData?,
      assocFind?, mkEdgeData]

/-- **C2 (amended)**: the observation span used by `build_graph` for every
edge's throughput is `max - min` over the parseable timestamps when that
difference is positive, and `1.0` when the difference is `≤ 0` or no timestamp
parses — the `1.0` fallback is not a floor: positive sub-second spans are kept
as they are. -/
theorem observationSpan_characterization (recs : List LogRecord) :
    (timestampsOf recs = [] → observationSpan recs = 1) ∧
    (timestampsOf recs ≠ [] →
      0 < listMax (timestampsOf recs) - listMin (timestampsOf recs) →
      observationSpan recs = listMax (timestampsOf recs) - listMin (timestampsOf recs)) ∧
    (timestampsOf recs ≠ [] →
      listMax (timestampsOf recs) - listMin (timestampsOf recs) ≤ 0 →
      observationSpan recs = 1) ∧
    (∀ k dd, (k, dd) ∈ (GraphBuilder.build_graph recs).edges →
      dd.throughput = (dd.count : ℚ) / observationSpan recs) := by
  refine ⟨?_, ?_, ?_, ?_⟩
  · intro h
    simp [observationSpan, h]
  · intro hne hpos
    rw [observationSpan]
    simp only [List.isEmpty_iff]
    rw [if_neg hne, if_neg (not_le.mpr hpos)]
  · intro hne hle
    rw [observationSpan]
    simp only [List.isEmpty_iff]
    rw [if_neg hne, if_pos hle]
  · intro k dd h
    unfold GraphBuilder.build_graph at h
    simp only [List.mem_map] at h
    obtain ⟨e, _, heq⟩ := h
    have hdd : dd = mkEdgeData (observationSpan recs) e.2 := by
      have := congrArg Prod.snd heq
      simpa using this.symm
    subst hdd
    rfl

/-- Witness for C2 (amended): a record set with no parseable timestamp gets
span `1`; the half-second pair gets span `1/2`. -/
theorem observationSpan_characterization_witness :
    observationSpan [⟨none, "A", "a", "B", "b", 10⟩] = 1 ∧
    observationSpan [⟨some 0, "A", "a", "B", "b", 10⟩, ⟨some (1/2), "B", "b", "C", "c", 5⟩]
      = 1 / 2 := by
  constructor
  · exact (observationSpan_characterization [⟨none, "A", "a", "B", "b", 10⟩]).1 rfl
  · have h := (observationSpan_characterization
      [⟨some 0, "A", "a", "B", "b", 10⟩, ⟨some (1/2), "B", "b", "C", "c", 5⟩]).2.1
    have hm : listMax (timestampsOf
        [⟨some 0, "A", "a", "B", "b", 10⟩, ⟨some (1/2), "B", "b", "C", "c", 5⟩])
        - listMin (timestampsOf
        [⟨some 0, "A", "a", "B", "b", 10⟩, ⟨some (1/2), "B", "b", "C", "c", 5⟩])
        = 1 / 2 := by
      norm_num [timestampsOf, listMax, listMin, List.filterMap_cons]
    rw [h (by simp [timestampsOf, List.filterMap_cons]) (by rw [hm]; norm_num), hm]

/-! ### Node-list and summation lemmas -/

theorem sum_map_add {α : Type} (l : List α) (f g : α → ℚ) :
    (l.map (fun x => f x + g x)).sum = (l.map f).sum + (l.map g).sum := by
  induction l with
  | nil => simp
  | cons x xs ih => simp [ih]; ring

theorem sum_ite_zero (l : List String) (x : String) (c : ℚ) (h : x ∉ l) :
    (l.map (fun n => if x = n then c else 0)).sum = 0 := by
  induction l with
  | nil => rfl
  | cons n rest ih =>
    have hx : x ≠ n := fun he => h (he ▸ List.mem_cons_self n rest)
    have hrest : x ∉ rest := fun hm => h (List.mem_cons_of_mem n hm)
    simp [hx, ih hrest]

theorem sum_ite_single (l : List String) (x : String) (c : ℚ)
    (hnd : l.Nodup) (hx : x ∈ l) :
    (l.map (fun n => if x = n then c else 0)).sum = c := by
  induction l with
  | nil => cases hx
  | cons n rest ih =>
    rcases List.mem_cons.mp hx with he | hm
    · subst he
      have : x ∉ rest := (List.nodup_cons.mp hnd).1
      simp [sum_ite_zero rest x c this]
    · have hne : x ≠ n := by
        rintro rfl
        exact (List.nodup_cons.mp hnd).1 hm
      simp only [List.map_cons, List.sum_cons, if_neg hne]
      rw [ih (List.nodup_cons.mp hnd).2 hm]
      ring
theorem sum_fiber {β : Type} (w : β → ℚ) (key : β → String) (ns : List String)
    (hnd : ns.Nodup) :
    ∀ es : List β, (∀ e ∈ es, key e ∈ ns) →
      (ns.map (fun n => ((es.filter (fun e => key e == n)).map w).sum)).sum
        = (es.map w).sum := by
  intro es
  induction es with
  | nil => intro _; simp
  | cons e es' ih =>
    intro hmem
    have hinner : ∀ n ∈ ns,
        (((e :: es').filter (fun x => key x == n)).map w).sum
          = (if key e = n then w e else 0)
            + ((es'.filter (fun x => key x == n)).map w).sum := by
      intro n _
      by_cases h : key e = n
      · simp [List.filter_cons, h]
      · simp [List.filter_cons, h]
    rw [List.map_congr_left hinner, sum_map_add]
    rw [sum_ite_single ns (key e) (w e) hnd (hmem e (List.mem_cons_self e es'))]
    rw [ih (fun x hx => hmem x (List.mem_cons_of_mem e hx))]
    simp

theorem mem_insertNode_self (ns : List String) (n : String) : n ∈ insertNode ns n := by
  unfold insertNode
  by_cases h : n ∈ ns <;> simp [h]

theorem mem_insertNode_of_mem (ns : List String) (x n : String) (h : x ∈ ns) :
    x ∈ insertNode ns n := by
  unfold insertNode
  by_cases hm : n ∈ ns <;> simp [hm, h]

theorem insertNode_nodup (ns : List String) (n : String) (h : ns.Nodup) :
    (insertNode ns n).Nodup := by
  unfold insertNode
  by_cases hm : n ∈ ns
  · simpa [hm]
  · rw [if_neg hm]
    refine List.nodup_append.mpr ⟨h, List.nodup_singleton n, ?_⟩
    intro a ha hb
    rw [List.mem_singleton] at hb
    subst hb
    exact hm ha

theorem nodesOf_nodup (recs : List LogRecord) : (nodesOf recs).Nodup := by
  suffices h : ∀ acc : List String, acc.Nodup →
      (recs.foldl (fun ns r => insertNode (insertNode ns r.src_service) r.dst_service) acc).Nodup by
    exact h [] List.nodup_nil
  induction recs with
  | nil => intro acc ha; simpa
  | cons r rs ih =>
    intro acc ha
    exact ih _ (insertNode_nodup _ _ (insertNode_nodup _ _ ha))

theorem mem_foldl_insertNode (recs : List LogRecord) :
    ∀ (acc : List String) (x : String), x ∈ acc →
      x ∈ recs.foldl (fun ns r => insertNode (insertNode ns r.src_service) r.dst_service) acc := by
  induction recs with
  | nil => intro acc x h; simpa
  | cons r rs ih =>
    intro acc x h
    exact ih _ x (mem_insertNode_of_mem _ _ _ (mem_insertNode_of_mem _ _ _ h))

theorem mem_nodesOf (recs : List LogRecord) (r : LogRecord) (h : r ∈ recs) :
    r.src_service ∈ nodesOf recs ∧ r.dst_service ∈ nodesOf recs := by
  suffices hs : ∀ acc : List String,
      r.src_service ∈ recs.foldl
        (fun ns x => insertNode (insertNode ns x.src_service) x.dst_service) acc ∧
      r.dst_service ∈ recs.foldl
        (fun ns x => insertNode (insertNode ns x.src_service) x.dst_service) acc by
    exact hs []
  induction recs with
  | nil => cases h
  | cons r0 rs ih =>
    intro acc
    rcases List.mem_cons.mp h with he | hm
    · subst he
      constructor
      · exact mem_foldl_insertNode rs _ _
          (mem_insertNode_of_mem _ _ _ (mem_insertNode_self _ _))
      · exact mem_foldl_insertNode rs _ _ (mem_insertNode_self _ _)
    · exact ih hm _

theorem mem_addCall (acc : List ((String × String) × EdgeAccum))
    (s d : String) (lat : ℚ) (k : String × String) (a : EdgeAccum)
    (h : (k, a) ∈ addCall acc s d lat) :
    (∃ a0, (k, a0) ∈ acc) ∨ k = (s, d) := by
  induction acc with
  | nil =>
    right
    simpa [addCall] using congrArg Prod.fst (List.mem_singleton.mp h)
  | cons x rest ih =>
    rcases x with ⟨kx, ax⟩
    by_cases hk : kx = (s, d)
    · subst hk
      simp only [addCall, if_pos rfl] at h
      rcases List.mem_cons.mp h with he | hm
      · right
        simpa using congrArg Prod.fst he
      · exact .inl ⟨a, List.mem_cons_of_mem _ hm⟩
    · simp only [addCall, if_neg hk] at h
      rcases List.mem_cons.mp h with he | hm
      · have : k = kx := congrArg Prod.fst he
        subst this
        exact .inl ⟨ax, List.mem_cons_self _ _⟩
      · rcases ih hm with ⟨a0, h0⟩ | he
        · exact .inl ⟨a0, List.mem_cons_of_mem _ h0⟩
        · exact .inr he

theorem mem_accumEdges (recs : List LogRecord) (k : String × String) (a : EdgeAccum)
    (h : (k, a) ∈ accumEdges recs) :
    ∃ r ∈ recs, k = (r.src_service, r.dst_service) := by
  suffices hgen : ∀ (acc : List ((String × String) × EdgeAccum)) (a : EdgeAccum),
      (k, a) ∈ recs.foldl (fun ac r => addCall ac r.src_service r.dst_service r.latency) acc →
      (∃ a0, (k, a0) ∈ acc) ∨ ∃ r ∈ recs, k = (r.src_service, r.dst_service) by
    rcases hgen [] a h with ⟨a0, h0⟩ | he
    · cases h0
    · exact he
  clear h
  induction recs with
  | nil =>
    intro acc a h
    exact .inl ⟨a, h⟩
  | cons r rs ih =>
    intro acc a h
    rcases ih _ a h with ⟨a0, h0⟩ | ⟨r', hr', he⟩
    · rcases mem_addCall acc _ _ _ k a0 h0 with ⟨a1, h1⟩ | he
      · exact .inl ⟨a1, h1⟩
      · exact .inr ⟨r, List.mem_cons_self r rs, he⟩
    · exact .inr ⟨r', List.mem_cons_of_mem r hr', he⟩

theorem build_edge_endpoints (recs : List LogRecord) (k : String × String) (dd : EdgeData)
    (h : (k, dd) ∈ (GraphBuilder.build_graph recs).edges) :
    k.1 ∈ (GraphBuilder.build_graph recs).nodes ∧
    k.2 ∈ (GraphBuilder.build_graph recs).nodes := by
  unfold GraphBuilder.build_graph at h ⊢
  simp only [List.mem_map] at h
  obtain ⟨e, he, heq⟩ := h
  have hk : e.1 = k := congrArg Prod.fst heq
  obtain ⟨r, hr, hre⟩ := mem_accumEdges recs e.1 e.2 (by simpa using he)
  rw [hk] at hre
  obtain ⟨h1, h2⟩ := mem_nodesOf recs r hr
  subst hre
  exact ⟨h1, h2⟩

/-- **C7**: on every graph `build_graph` produces, each node's stored `load`
is `in_throughput + out_throughput`, and the sum over all nodes of outgoing
throughput equals the sum of incoming throughput (each edge contributes its
throughput exactly once to either side; the identity is exact over `ℚ`, hence
within any epsilon). -/
theorem node_load_and_balance (recs : List LogRecord) :
    (∀ n, ((GraphBuilder.build_graph recs).nodeData n).load
        = (GraphBuilder.build_graph recs).inThroughput n
          + (GraphBuilder.build_graph recs).outThroughput n) ∧
    ((GraphBuilder.build_graph recs).nodes.map
        (fun n => (GraphBuilder.build_graph recs).outThroughput n)).sum
      = ((GraphBuilder.build_graph recs).nodes.map
        (fun n => (GraphBuilder.build_graph recs).inThroughput n)).sum := by
  constructor
  · intro n
    rfl
  · have hnd : (GraphBuilder.build_graph recs).nodes.Nodup := nodesOf_nodup recs
    have hout := sum_fiber (fun e => e.2.throughput) (fun e => e.1.1)
      (GraphBuilder.build_graph recs).nodes hnd (GraphBuilder.build_graph recs).edges
      (fun e he => (build_edge_endpoints recs e.1 e.2 (by simpa using he)).1)
    have hin := sum_fiber (fun e => e.2.throughput) (fun e => e.1.2)
      (GraphBuilder.build_graph recs).nodes hnd (GraphBuilder.build_graph recs).edges
      (fun e he => (build_edge_endpoints recs e.1 e.2 (by simpa using he)).2)
    unfold DiGraph.outThroughput DiGraph.inThroughput
    rw [hout, hin]

/-- Witness for C10: a record with an unparsable timestamp still lands in the
edge's latency list and count, and the span comes from the parseable record
alone. -/
theorem unparsable_timestamp_still_counted_witness :
    (GraphBuilder.build_graph
        [⟨none, "A", "a", "B", "b", 7⟩, ⟨some 0, "A", "a", "B", "b", 3⟩]).edgeTimes "A" "B"
      = [7, 3] ∧
    (GraphBuilder.build_graph
        [⟨none, "A", "a", "B", "b", 7⟩, ⟨some 0, "A", "a", "B", "b", 3⟩]).edgeCount "A" "B"
      = 2 ∧
    (mkEdgeData 1 ⟨[7, 3], 2⟩).throughput
      = ((mkEdgeData 1 ⟨[7, 3], 2⟩).count : ℚ)
        / observationSpan [⟨none, "A", "a", "B", "b", 7⟩, ⟨some 0, "A", "a", "B", "b", 3⟩] := by
  have h := unparsable_timestamp_still_counted
    [⟨none, "A", "a", "B", "b", 7⟩, ⟨some 0, "A", "a", "B", "b", 3⟩] "A" "B"
  refine ⟨?_, ?_, ?_⟩
  · rw [h.1]
    norm_num [List.filter_cons]
  · rw [h.2.1]
    norm_num [List.filter_cons]
  · refine h.2.2.2 (mkEdgeData 1 ⟨[7, 3], 2⟩) ?_
    norm_num [GraphBuilder.build_graph, accumEdges, addCall, observationSpan,
      timestampsOf, listMax, listMin, List.filterMap_cons, DiGraph.edgeData?, assocFind?]

/-! ### Sliding-window lemmas -/

theorem windowStartsF_nil (e : ℚ) (st : Nat) (fuel : Nat) (c : ℚ) (h : e < c) :
    windowStartsF e st fuel c = [] := by
  cases fuel with
  | zero => rfl
  | succ n =>
    rw [windowStartsF, if_neg]
    rintro ⟨-, hle⟩
    exact absurd hle (not_le.mpr h)

theorem windowStartsF_eq (st : Nat) (hst : 0 < st) (e : ℚ) :
    ∀ (fuel : Nat) (c : ℚ), Nat.floor ((e - c) / (st : ℚ)) + 1 < fuel → c ≤ e →
      windowStartsF e st fuel c
        = (List.range (Nat.floor ((e - c) / (st : ℚ)) + 1)).map
            (fun k : Nat => c + (k : ℚ) * (st : ℚ)) := by
  intro fuel
  induction fuel with
  | zero => intro c h _; exact absurd h (Nat.not_lt_zero _)
  | succ n ih =>
    intro c hfuel hce
    have hstq : (0 : ℚ) < (st : ℚ) := by exact_mod_cast hst
    rw [windowStartsF, if_pos ⟨hst, hce⟩]
    by_cases hnext : c + st ≤ e
    · have hX1 : (1 : ℚ) ≤ (e - c) / (st : ℚ) := by
        rw [le_div_iff₀ hstq]
        linarith
      have hshift : (e - (c + st)) / (st : ℚ) = (e - c) / (st : ℚ) - 1 := by
        field_simp
        ring
      have hfloor : Nat.floor ((e - (c + st)) / (st : ℚ))
          = Nat.floor ((e - c) / (st : ℚ)) - 1 := by
        rw [hshift]
        rw [show ((1 : ℚ) = ((1 : ℕ) : ℚ)) by norm_num]
        exact Nat.floor_sub_nat _ 1
      have hfl1 : 1 ≤ Nat.floor ((e - c) / (st : ℚ)) := by
        have := Nat.le_floor (α := ℚ) (n := 1) (by exact_mod_cast hX1)
        simpa using this
      have hfuel' : Nat.floor ((e - (c + st)) / (st : ℚ)) + 1 < n := by
        rw [hfloor]; omega
      rw [ih (c + st) hfuel' hnext, hfloor]
      have hrange : Nat.floor ((e - c) / (st : ℚ)) + 1
          = (Nat.floor ((e - c) / (st : ℚ)) - 1 + 1) + 1 := by omega
      conv_rhs => rw [hrange, List.range_succ_eq_map]
      simp only [List.map_cons, List.map_map, Nat.cast_zero, zero_mul, add_zero]
      refine congrArg₂ List.cons rfl ?_
      apply List.map_congr_left
      intro k _
      simp only [Function.comp_apply, Nat.cast_succ]
      ring
    · have hend : e < c + st := not_le.mp hnext
      rw [windowStartsF_nil e st n (c + st) hend]
      have hXlt : (e - c) / (st : ℚ) < 1 := by
        rw [div_lt_one hstq]
        linarith
      have hfl0 : Nat.floor ((e - c) / (st : ℚ)) = 0 := Nat.floor_eq_zero.mpr hXlt
      rw [hfl0]
      norm_num [List.range_succ]

theorem windowStarts_eq (st : Nat) (hst : 0 < st) (e c : ℚ) (hce : c ≤ e) :
    windowStarts e st c
      = (List.range (Nat.floor ((e - c) / (st : ℚ)) + 1)).map
          (fun k : Nat => c + (k : ℚ) * (st : ℚ)) := by
  apply windowStartsF_eq st hst e _ c _ hce
  rw [Int.floor_toNat]
  omega

theorem foldl_max_le (rest : List ℚ) : ∀ t : ℚ, t ≤ rest.foldl max t := by
  induction rest with
  | nil => intro t; exact le_refl t
  | cons r rs ih =>
    intro t
    exact le_trans (le_max_left t r) (ih (max t r))

theorem foldl_min_le (rest : List ℚ) : ∀ t : ℚ, rest.foldl min t ≤ t := by
  induction rest with
  | nil => intro t; exact le_refl t
  | cons r rs ih =>
    intro t
    exact le_trans (ih (min t r)) (min_le_left t r)

theorem listMin_le_listMax (l : List ℚ) (h : l ≠ []) : listMin l ≤ listMax l := by
  cases l with
  | nil => exact absurd rfl h
  | cons t rest =>
    exact le_trans (foldl_min_le rest t) (foldl_max_le rest t)

theorem except_bind_ok {α β : Type} (a : α) (f : α → Except Unit β) :
    (Except.ok a : Except Unit α).bind f = f a := rfl

theorem except_bind_err {α β : Type} (e : Unit) (f : α → Except Unit β) :
    (Except.error e : Except Unit α).bind f = .error e := rfl

theorem except_map_ok {α β : Type} (g : α → β) (a : α) :
    Except.map g (Except.ok a : Except Unit α) = .ok (g a) := rfl

theorem mapME_parse_all (recs : List LogRecord)
    (h : ∀ r ∈ recs, r.timestamp.isSome) :
    mapME (fun r => parse_iso_z r.timestamp) recs = .ok (timestampsOf recs) := by
  induction recs with
  | nil => rfl
  | cons r rs ih =>
    obtain ⟨t, ht⟩ := Option.isSome_iff_exists.mp (h r (List.mem_cons_self r rs))
    have hrest := ih (fun x hx => h x (List.mem_cons_of_mem r hx))
    rw [show mapME (fun r => parse_iso_z r.timestamp) (r :: rs)
        = (parse_iso_z r.timestamp).bind (fun y =>
            (mapME (fun r => parse_iso_z r.timestamp) rs).bind (fun ys => .ok (y :: ys)))
      from rfl, ht]
    rw [show parse_iso_z (some t) = .ok t from rfl, except_bind_ok, hrest, except_bind_ok]
    simp only [timestampsOf, List.filterMap_cons, ht]

theorem mapME_pairs_ok (recs : List LogRecord)
    (h : ∀ r ∈ recs, r.timestamp.isSome) :
    mapME (fun r => (parse_iso_z r.timestamp).map (fun t => (r, t))) recs
      = .ok (recs.map (fun r => (r, r.timestamp.getD 0))) := by
  induction recs with
  | nil => rfl
  | cons r rs ih =>
    obtain ⟨t, ht⟩ := Option.isSome_iff_exists.mp (h r (List.mem_cons_self r rs))
    have hrest := ih (fun x hx => h x (List.mem_cons_of_mem r hx))
    rw [show mapME (fun r => (parse_iso_z r.timestamp).map (fun t => (r, t))) (r :: rs)
        = ((parse_iso_z r.timestamp).map (fun t => (r, t))).bind (fun y =>
            (mapME (fun r => (parse_iso_z r.timestamp).map (fun t => (r, t))) rs).bind
              (fun ys => .ok (y :: ys)))
      from rfl, ht]
    rw [show (parse_iso_z (some t)).map (fun x => (r, x)) = .ok (r, t) from rfl,
      except_bind_ok, hrest, except_bind_ok]
    simp only [List.map_cons, ht, Option.getD_some]

theorem records_in_window_ok (recs : List LogRecord) (a b : ℚ)
    (h : ∀ r ∈ recs, r.timestamp.isSome) :
    records_in_window recs a b
      = .ok (recs.filter (fun r =>
          decide (a ≤ r.timestamp.getD 0) && decide (r.timestamp.getD 0 ≤ b))) := by
  rw [records_in_window, mapME_pairs_ok recs h, except_bind_ok]
  rw [List.filter_map]
  simp only [List.map_map, Function.comp_def, Option.getD_some, List.map_id_fun, id]
  simp

theorem mapME_ok_all {α β : Type} (f : α → Except Unit β) (l : List α)
    (h : ∀ x ∈ l, ∃ y, f x = .ok y) :
    ∃ out, mapME f l = .ok out ∧ out.length = l.length ∧
      ∀ i (hi : i < l.length) (ho : i < out.length),
        f (l.get ⟨i, hi⟩) = .ok (out.get ⟨i, ho⟩) := by
  induction l with
  | nil => exact ⟨[], rfl, rfl, fun i hi => absurd hi (Nat.not_lt_zero i)⟩
  | cons x xs ih =>
    obtain ⟨y, hy⟩ := h x (List.mem_cons_self x xs)
    obtain ⟨out, hout, hlen, hpt⟩ := ih (fun z hz => h z (List.mem_cons_of_mem x hz))
    refine ⟨y :: out, ?_, by simpa using hlen, ?_⟩
    · simp [mapME, hy, hout, except_bind_ok]
    · intro i hi ho
      cases i with
      | zero => simpa using hy
      | succ j =>
        exact hpt j (Nat.lt_of_succ_lt_succ hi) (Nat.lt_of_succ_lt_succ ho)

theorem sliding_windows_ok (recs : List LogRecord) (w s : Nat)
    (hne : recs ≠ []) (h : ∀ r ∈ recs, r.timestamp.isSome) :
    sliding_windows recs w s
      = .ok ((windowStarts (listMax (timestampsOf recs)) s (listMin (timestampsOf recs))).map
          (fun c => (c, c + (w : ℚ)))) := by
  rw [sliding_windows, if_neg (by simpa using hne), mapME_parse_all recs h,
    except_bind_ok]

theorem analyzeWindow_ok (recs : List LogRecord) (source sink : String)
    (attr : CapacityAttr) (fuel : Nat) (wp : ℚ × ℚ)
    (h : ∀ r ∈ recs, r.timestamp.isSome) :
    ∃ res, analyzeWindow recs source sink attr fuel wp = .ok res := by
  rw [analyzeWindow, records_in_window_ok recs wp.1 wp.2 h, except_bind_ok]
  split
  · exact ⟨_, rfl⟩
  · dsimp only
    split
    · exact ⟨_, rfl⟩
    · exact ⟨_, rfl⟩

theorem timestampsOf_ne_nil (recs : List LogRecord) (hne : recs ≠ [])
    (h : ∀ r ∈ recs, r.timestamp.isSome) : timestampsOf recs ≠ [] := by
  cases recs with
  | nil => exact absurd rfl hne
  | cons r rs =>
    obtain ⟨t, ht⟩ := Option.isSome_iff_exists.mp (h r (List.mem_cons_self r rs))
    simp [timestampsOf, List.filterMap_cons, ht]

/-- **C5**: with a positive step, a non-empty record list whose (parseable)
timestamps span `T` seconds yields exactly `⌊T/S⌋ + 1` windows, starting at
the minimum timestamp and advancing by `S` while the start stays `≤` the
maximum; each window spans `[start, start + W]`; an empty record list yields
zero windows; `analyze_time_windows` emits one result per window. -/
theorem sliding_window_count (recs : List LogRecord) (w s : Nat)
    (source sink : String) (attr : CapacityAttr) (fuel : Nat)
    (hne : recs ≠ []) (hp : ∀ r ∈ recs, r.timestamp.isSome) (hs : 0 < s) :
    sliding_windows ([] : List LogRecord) w s = .ok [] ∧
    ∃ ws, sliding_windows recs w s = .ok ws ∧
      ws.length
        = Nat.floor ((listMax (timestampsOf recs) - listMin (timestampsOf recs)) / (s : ℚ))
          + 1 ∧
      (∀ i (hi : i < ws.length),
        ws.get ⟨i, hi⟩
          = (listMin (timestampsOf recs) + (i : ℚ) * (s : ℚ),
             listMin (timestampsOf recs) + (i : ℚ) * (s : ℚ) + (w : ℚ))) ∧
      ∃ l, analyze_time_windows recs source sink w s attr fuel = .ok l ∧
        l.length = ws.length := by
  have hts := timestampsOf_ne_nil recs hne hp
  have hce : listMin (timestampsOf recs) ≤ listMax (timestampsOf recs) :=
    listMin_le_listMax _ hts
  have hws := sliding_windows_ok recs w s hne hp
  rw [windowStarts_eq s hs _ _ hce] at hws
  refine ⟨rfl, _, hws, ?_, ?_, ?_⟩
  · simp
  · intro i hi
    simp only [List.get_eq_getElem, List.getElem_map, List.getElem_range]
  · have hmapME := mapME_ok_all (analyzeWindow recs source sink attr fuel)
      ((List.range (Nat.floor ((listMax (timestampsOf recs) - listMin (timestampsOf recs))
          / (s : ℚ)) + 1)).map
        (fun k : Nat => (listMin (timestampsOf recs) + (k : ℚ) * (s : ℚ),
          listMin (timestampsOf recs) + (k : ℚ) * (s : ℚ) + (w : ℚ))))
      (fun wp _ => analyzeWindow_ok recs source sink attr fuel wp hp)
    obtain ⟨l, hl, hlen, -⟩ := hmapME
    refine ⟨l, ?_, by simpa using hlen⟩
    rw [analyze_time_windows, hws, except_bind_ok, List.map_map]
    exact hl

/-- Witness for C5: two records one second apart, window 60 s, step 30 s:
exactly `⌊1/30⌋ + 1 = 1` window. -/
theorem sliding_window_count_witness :
    ∃ ws, sliding_windows
        [⟨some 0, "A", "a", "B", "b", 10⟩, ⟨some 1, "B", "b", "C", "c", 20⟩] 60 30
      = .ok ws ∧ ws.length = 1 := by
  obtain ⟨-, ws, hok, hlen, -, -⟩ := sliding_window_count
    [⟨some 0, "A", "a", "B", "b", 10⟩, ⟨some 1, "B", "b", "C", "c", 20⟩] 60 30
    "A" "C" .capacity 9 (by simp) (by simp) (by norm_num)
  refine ⟨ws, hok, ?_⟩
  rw [hlen]
  have : listMax (timestampsOf
        [⟨some 0, "A", "a", "B", "b", 10⟩, ⟨some 1, "B", "b", "C", "c", 20⟩])
      - listMin (timestampsOf
        [⟨some 0, "A", "a", "B", "b", 10⟩, ⟨some 1, "B", "b", "C", "c", 20⟩]) = 1 := by
    norm_num [timestampsOf, listMax, listMin, List.filterMap_cons]
  rw [this, Nat.floor_eq_zero.mpr (by norm_num)]

/-- **C3 counterexample**: one record with an unparsable timestamp makes
`analyze_time_windows` raise (`parse_iso_z` inside `sliding_windows` is not
guarded), aborting the whole run instead of degrading a window. -/
theorem analyze_raises_on_unparsable :
    analyze_time_windows [⟨none, "A", "a", "B", "b", 1⟩] "A" "B" 60 30 .capacity 9
      = .error () := by
  rfl

/-- `analyze_time_windows` on an all-parseable log with a positive step:
`.ok`, one result per window, each window settled independently (shared by
the C3 and C8 claim theorems). -/
theorem analyze_windows_per_window (recs : List LogRecord) (source sink : String)
    (w s : Nat) (attr : CapacityAttr) (fuel : Nat)
    (_hstep : 0 < s) (hp : ∀ r ∈ recs, r.timestamp.isSome) :
    ∃ ws l, sliding_windows recs w s = .ok ws ∧
      analyze_time_windows recs source sink w s attr fuel = .ok l ∧
      l.length = ws.length ∧
      ∀ i (hi : i < ws.length) (hl : i < l.length),
        analyzeWindow recs source sink attr fuel (ws.get ⟨i, hi⟩) = .ok (l.get ⟨i, hl⟩) ∧
        ∃ wrecs,
          records_in_window recs (ws.get ⟨i, hi⟩).1 (ws.get ⟨i, hi⟩).2 = .ok wrecs ∧
          ((wrecs = [] →
              l.get ⟨i, hl⟩ = sentinelResult (ws.get ⟨i, hi⟩).1 (ws.get ⟨i, hi⟩).2) ∧
           (wrecs ≠ [] →
              ¬ (source ∈ (GraphBuilder.build_graph wrecs).nodes ∧
                 sink ∈ (GraphBuilder.build_graph wrecs).nodes) →
              l.get ⟨i, hl⟩ = sentinelResult (ws.get ⟨i, hi⟩).1 (ws.get ⟨i, hi⟩).2) ∧
           (wrecs ≠ [] →
              (source ∈ (GraphBuilder.build_graph wrecs).nodes ∧
               sink ∈ (GraphBuilder.build_graph wrecs).nodes) →
              GraphAnalyzer.max_flow (GraphBuilder.build_graph wrecs) source sink attr fuel
                = none →
              l.get ⟨i, hl⟩ = sentinelResult (ws.get ⟨i, hi⟩).1 (ws.get ⟨i, hi⟩).2) ∧
           (∀ fv cv S T, wrecs ≠ [] →
              (source ∈ (GraphBuilder.build_graph wrecs).nodes ∧
               sink ∈ (GraphBuilder.build_graph wrecs).nodes) →
              GraphAnalyzer.max_flow (GraphBuilder.build_graph wrecs) source sink attr fuel
                = some fv →
              GraphAnalyzer.min_cut (GraphBuilder.build_graph wrecs) source sink attr fuel
                = some (cv, S, T) →
              l.get ⟨i, hl⟩
                = { start := (ws.get ⟨i, hi⟩).1, stop := (ws.get ⟨i, hi⟩).2, flow := fv,
                    min_cut := collectCut (GraphBuilder.build_graph wrecs) S T,
                    cut_value := cv })) := by
  by_cases hne : recs = []
  · subst hne
    refine ⟨[], [], rfl, rfl, rfl, ?_⟩
    intro i hi
    exact absurd hi (Nat.not_lt_zero i)
  · have hws := sliding_windows_ok recs w s hne hp
    set wsl := (windowStarts (listMax (timestampsOf recs)) s
        (listMin (timestampsOf recs))).map (fun c => (c, c + (w : ℚ))) with hwsl
    obtain ⟨l, hl, hlen, hpt⟩ := mapME_ok_all (analyzeWindow recs source sink attr fuel)
      wsl (fun wp _ => analyzeWindow_ok recs source sink attr fuel wp hp)
    refine ⟨wsl, l, hws, ?_, hlen, ?_⟩
    · rw [analyze_time_windows, hws, except_bind_ok]
      exact hl
    · intro i hi hil
      have hwin := hpt i hi hil
      refine ⟨hwin, ?_⟩
      set wp := wsl.get ⟨i, hi⟩ with hwp
      have hriw := records_in_window_ok recs wp.1 wp.2 hp
      refine ⟨recs.filter (fun r =>
          decide (wp.1 ≤ r.timestamp.getD 0) && decide (r.timestamp.getD 0 ≤ wp.2)),
        hriw, ?_, ?_, ?_, ?_⟩
      · intro hempty
        rw [analyzeWindow, hriw, except_bind_ok, if_pos (by simp [hempty])] at hwin
        exact (Except.ok.injEq _ _).mp hwin.symm ▸ rfl
      · intro hnem hmiss
        rw [analyzeWindow, hriw, except_bind_ok,
          if_neg (by simpa using hnem)] at hwin
        dsimp only at hwin
        rw [if_pos hmiss] at hwin
        exact ((Except.ok.injEq _ _).mp hwin).symm
      · intro hnem hpres hnone
        rw [analyzeWindow, hriw, except_bind_ok,
          if_neg (by simpa using hnem)] at hwin
        dsimp only at hwin
        rw [if_neg (by simpa using hpres), hnone] at hwin
        exact ((Except.ok.injEq _ _).mp hwin).symm
      · intro fv cv S T hnem hpres hsome hsomec
        rw [analyzeWindow, hriw, except_bind_ok,
          if_neg (by simpa using hnem)] at hwin
        dsimp only at hwin
        rw [if_neg (by simpa using hpres), hsome, hsomec] at hwin
        exact ((Except.ok.injEq _ _).mp hwin).symm

/-- **C3 (amended)**: when every timestamp parses, `analyze_time_windows`
never raises and returns one result per window; a window whose inclusive
selection is empty, or whose subset graph lacks the source or sink, or on
which the solver fails, yields the zero-flow/empty-cut sentinel for that
window only, and every other window is still analyzed (windows are processed
independently).  With an unparsable timestamp the whole run raises instead.
Stated for a positive `step_seconds`: at `step_seconds = 0` the `while` loop
of `sliding_windows` (bottleneck.py lines 26-29) diverges. -/
theorem analyze_time_windows_total (recs : List LogRecord) (source sink : String)
    (w s : Nat) (attr : CapacityAttr) (fuel : Nat)
    (hstep : 0 < s) (hp : ∀ r ∈ recs, r.timestamp.isSome) :
    ∃ ws l, sliding_windows recs w s = .ok ws ∧
      analyze_time_windows recs source sink w s attr fuel = .ok l ∧
      l.length = ws.length ∧
      ∀ i (hi : i < ws.length) (hl : i < l.length),
        analyzeWindow recs source sink attr fuel (ws.get ⟨i, hi⟩) = .ok (l.get ⟨i, hl⟩) ∧
        ∃ wrecs,
          records_in_window recs (ws.get ⟨i, hi⟩).1 (ws.get ⟨i, hi⟩).2 = .ok wrecs ∧
          ((wrecs = [] →
              l.get ⟨i, hl⟩ = sentinelResult (ws.get ⟨i, hi⟩).1 (ws.get ⟨i, hi⟩).2) ∧
           (wrecs ≠ [] →
              ¬ (source ∈ (GraphBuilder.build_graph wrecs).nodes ∧
                 sink ∈ (GraphBuilder.build_graph wrecs).nodes) →
              l.get ⟨i, hl⟩ = sentinelResult (ws.get ⟨i, hi⟩).1 (ws.get ⟨i, hi⟩).2) ∧
           (wrecs ≠ [] →
              (source ∈ (GraphBuilder.build_graph wrecs).nodes ∧
               sink ∈ (GraphBuilder.build_graph wrecs).nodes) →
              GraphAnalyzer.max_flow (GraphBuilder.build_graph wrecs) source sink attr fuel
                = none →
              l.get ⟨i, hl⟩ = sentinelResult (ws.get ⟨i, hi⟩).1 (ws.get ⟨i, hi⟩).2) ∧
           (∀ fv cv S T, wrecs ≠ [] →
              (source ∈ (GraphBuilder.build_graph wrecs).nodes ∧
               sink ∈ (GraphBuilder.build_graph wrecs).nodes) →
              GraphAnalyzer.max_flow (GraphBuilder.build_graph wrecs) source sink attr fuel
                = some fv →
              GraphAnalyzer.min_cut (GraphBuilder.build_graph wrecs) source sink attr fuel
                = some (cv, S, T) →
              l.get ⟨i, hl⟩
                = { start := (ws.get ⟨i, hi⟩).1, stop := (ws.get ⟨i, hi⟩).2, flow := fv,
                    min_cut := collectCut (GraphBuilder.build_graph wrecs) S T,
                    cut_value := cv })) :=
  analyze_windows_per_window recs source sink w s attr fuel hstep hp

/-- Witness for C3 (amended) at a two-record, all-parseable log. -/
theorem analyze_time_windows_total_witness :
    ∃ ws l, sliding_windows
        [⟨some 0, "A", "a", "B", "b", 10⟩, ⟨some 1, "B", "b", "C", "c", 20⟩] 60 30
      = .ok ws ∧
      analyze_time_windows
        [⟨some 0, "A", "a", "B", "b", 10⟩, ⟨some 1, "B", "b", "C", "c", 20⟩]
        "A" "C" 60 30 .capacity 9 = .ok l ∧
      l.length = ws.length := by
  obtain ⟨ws, l, h1, h2, h3, -⟩ := analyze_time_windows_total
    [⟨some 0, "A", "a", "B", "b", 10⟩, ⟨some 1, "B", "b", "C", "c", 20⟩]
    "A" "C" 60 30 .capacity 9 (by norm_num) (by simp)
  exact ⟨ws, l, h1, h2, h3⟩

theorem mem_nodesOf_inv (recs : List LogRecord) (x : String) (h : x ∈ nodesOf recs) :
    ∃ r ∈ recs, x = r.src_service ∨ x = r.dst_service := by
  suffices hgen : ∀ acc : List String,
      x ∈ recs.foldl (fun ns r => insertNode (insertNode ns r.src_service) r.dst_service) acc →
      x ∈ acc ∨ ∃ r ∈ recs, x = r.src_service ∨ x = r.dst_service by
    rcases hgen [] h with hc | hr
    · cases hc
    · exact hr
  clear h
  induction recs with
  | nil => intro acc h; exact .inl h
  | cons r rs ih =>
    intro acc h
    rcases ih _ h with hacc | ⟨r', hr', he⟩
    · simp only [insertNode] at hacc
      by_cases h1 : r.dst_service ∈ (if r.src_service ∈ acc then acc else acc ++ [r.src_service])
      · rw [if_pos h1] at hacc
        by_cases h2 : r.src_service ∈ acc
        · rw [if_pos h2] at hacc
          exact .inl hacc
        · rw [if_neg h2] at hacc
          rcases List.mem_append.mp hacc with h3 | h3
          · exact .inl h3
          · exact .inr ⟨r, List.mem_cons_self r rs, .inl (List.mem_singleton.mp h3)⟩
      · rw [if_neg h1] at hacc
        rcases List.mem_append.mp hacc with h3 | h3
        · by_cases h2 : r.src_service ∈ acc
          · rw [if_pos h2] at h3
            exact .inl h3
          · rw [if_neg h2] at h3
            rcases List.mem_append.mp h3 with h4 | h4
            · exact .inl h4
            · exact .inr ⟨r, List.mem_cons_self r rs, .inl (List.mem_singleton.mp h4)⟩
        · exact .inr ⟨r, List.mem_cons_self r rs, .inr (List.mem_singleton.mp h3)⟩
    · exact .inr ⟨r', List.mem_cons_of_mem r hr', he⟩

/-- **C8 counterexample**: the batch pipeline
(`run_bottleneck_analysis.main`) with a source absent from the whole log
completes normally — it returns the sentinel window and an empty aggregate,
and raises no `NodeNotFoundError` (no such check or exception exists in the
batch path). -/
theorem batch_absent_source_counterexample :
    batchAnalysis [⟨some 0, "A", "a", "B", "b", 10⟩] "X" "B" 60 30 .capacity 9
      = .ok ([sentinelResult 0 60], []) := by
  simp [batchAnalysis, analyze_time_windows, sliding_windows, mapME, parse_iso_z,
    except_bind_ok, timestampsOf, listMax, listMin, List.filterMap_cons,
    windowStarts, windowStartsF, analyzeWindow, records_in_window,
    GraphBuilder.build_graph, accumEdges, addCall, observationSpan, nodesOf, insertNode,
    sentinelResult, aggregate_bottlenecks, buildCounter, isortDesc, Except.map]

/-- **C8 (amended)**: a source absent from the entire log is not fatal in
batch mode: `analyze_time_windows` degrades every window to the zero-result
sentinel and the batch pipeline completes with those sentinel windows (and
whatever they aggregate to) — exactly the behaviour the claim reserves for
sliding-window analysis.  Stated for a positive `step_seconds`: at
`step_seconds = 0` the `while` loop of `sliding_windows` diverges. -/
theorem batch_absent_source_degrades (recs : List LogRecord) (source sink : String)
    (w s : Nat) (attr : CapacityAttr) (fuel : Nat)
    (hstep : 0 < s) (hp : ∀ r ∈ recs, r.timestamp.isSome)
    (habs : ∀ r ∈ recs, r.src_service ≠ source ∧ r.dst_service ≠ source) :
    ∃ results, analyze_time_windows recs source sink w s attr fuel = .ok results ∧
      (∀ wres ∈ results, wres.flow = 0 ∧ wres.min_cut = []) ∧
      batchAnalysis recs source sink w s attr fuel
        = .ok (results, aggregate_bottlenecks results 20) := by
  obtain ⟨ws, l, hws, hl, hlen, hpt⟩ :=
    analyze_windows_per_window recs source sink w s attr fuel hstep hp
  refine ⟨l, hl, ?_, ?_⟩
  · intro wres hw
    obtain ⟨⟨i, hil⟩, hget⟩ := List.mem_iff_get.mp hw
    have hi : i < ws.length := hlen ▸ hil
    obtain ⟨-, wrecs, hriw, hempty, hmiss, -, -⟩ := hpt i hi hil
    by_cases hnem : wrecs = []
    · rw [← hget, hempty hnem]
      exact ⟨rfl, rfl⟩
    · have hsrc : source ∉ (GraphBuilder.build_graph wrecs).nodes := by
        intro hmem
        obtain ⟨r, hr, he⟩ := mem_nodesOf_inv wrecs source hmem
        have hrrec : r ∈ recs := by
          have hsub := records_in_window_ok recs (ws.get ⟨i, hi⟩).1 (ws.get ⟨i, hi⟩).2 hp
          rw [hriw] at hsub
          have : wrecs = recs.filter (fun r =>
              decide ((ws.get ⟨i, hi⟩).1 ≤ r.timestamp.getD 0)
                && decide (r.timestamp.getD 0 ≤ (ws.get ⟨i, hi⟩).2)) :=
            (Except.ok.injEq _ _).mp hsub
          exact List.mem_of_mem_filter (this ▸ hr)
        rcases he with he | he
        · exact (habs r hrrec).1 he.symm
        · exact (habs r hrrec).2 he.symm
      rw [← hget, hmiss hnem (fun hc => hsrc hc.1)]
      exact ⟨rfl, rfl⟩
  · rw [batchAnalysis, hl, except_bind_ok]

/-- Witness for C8 (amended) at a one-record log missing the source `X`. -/
theorem batch_absent_source_degrades_witness :
    ∃ results, analyze_time_windows [⟨some 0, "A", "a", "B", "b", 10⟩] "X" "B"
        60 30 .capacity 9 = .ok results ∧
      (∀ wres ∈ results, wres.flow = 0 ∧ wres.min_cut = []) ∧
      batchAnalysis [⟨some 0, "A", "a", "B", "b", 10⟩] "X" "B" 60 30 .capacity 9
        = .ok (results, aggregate_bottlenecks results 20) :=
  batch_absent_source_degrades [⟨some 0, "A", "a", "B", "b", 10⟩] "X" "B" 60 30
    .capacity 9 (by norm_num) (by simp) (by simp)

/-! ### Aggregation lemmas -/

theorem buildCounter_flat (results : List WindowResult) :
    buildCounter results
      = (results.flatMap (fun w => w.min_cut)).foldl bump [] := by
  suffices h : ∀ (ls : List WindowResult) (acc : List ((String × String) × Nat)),
      ls.foldl (fun a w => w.min_cut.foldl bump a) acc
        = (ls.flatMap (fun w => w.min_cut)).foldl bump acc by
    exact h results []
  intro ls
  induction ls with
  | nil => intro acc; rfl
  | cons w ws ih =>
    intro acc
    rw [List.foldl_cons, ih, List.flatMap_cons, List.foldl_append]

theorem lookupCount_bump (acc : List ((String × String) × Nat))
    (e e2 : String × String) :
    lookupCount (bump acc e) e2
      = lookupCount acc e2 + (if e2 = e then 1 else 0) := by
  induction acc with
  | nil =>
    by_cases h : e = e2
    · subst h
      simp [bump, lookupCount, assocFind?]
    · have h2 : ¬ e2 = e := fun hh => h hh.symm
      simp [bump, lookupCount, assocFind?, h, h2]
  | cons x rest ih =>
    rcases x with ⟨k, c⟩
    by_cases hk : k = e
    · subst hk
      by_cases h2 : k = e2
      · subst h2
        simp [bump, lookupCount, assocFind?]
      · have h3 : ¬ e2 = k := fun hh => h2 hh.symm
        simp [bump, lookupCount, assocFind?, h2, h3]
    · by_cases h2 : k = e2
      · subst h2
        simp [bump, hk, lookupCount, assocFind?]
      · simpa [bump, hk, lookupCount, assocFind?, h2] using ih

theorem lookupCount_foldl_bump (l : List (String × String)) :
    ∀ (acc : List ((String × String) × Nat)) (e : String × String),
      lookupCount (l.foldl bump acc) e = lookupCount acc e + l.count e := by
  induction l with
  | nil => intro acc e; simp
  | cons x xs ih =>
    intro acc e
    rw [List.foldl_cons, ih, lookupCount_bump, List.count_cons]
    by_cases h : e = x
    · subst h
      simp
      omega
    · have h2 : ¬ x = e := fun hh => h hh.symm
      simp [h, h2]

theorem bump_keys (acc : List ((String × String) × Nat)) (e : String × String) :
    (bump acc e).map (fun kv => kv.1)
      = (if e ∈ acc.map (fun kv => kv.1) then acc.map (fun kv => kv.1)
         else acc.map (fun kv => kv.1) ++ [e]) := by
  induction acc with
  | nil => simp [bump]
  | cons x rest ih =>
    rcases x with ⟨k, c⟩
    by_cases hk : k = e
    · subst hk
      simp [bump]
    · by_cases hmem : e ∈ rest.map (fun kv => kv.1)
      · have hk2 : ¬ e = k := fun hh => hk hh.symm
        simp [bump, hk, ih, hmem, hk2]
      · have hk2 : ¬ e = k := fun hh => hk hh.symm
        simp [bump, hk, ih, hmem, hk2]

theorem foldl_bump_keys (l : List (String × String)) :
    ∀ acc : List ((String × String) × Nat),
      (l.foldl bump acc).map (fun kv => kv.1)
        = l.foldl (fun ks e => if e ∈ ks then ks else ks ++ [e])
            (acc.map (fun kv => kv.1)) := by
  induction l with
  | nil => intro acc; rfl
  | cons x xs ih =>
    intro acc
    rw [List.foldl_cons, ih, bump_keys, List.foldl_cons]

theorem buildCounter_keys (results : List WindowResult) :
    (buildCounter results).map (fun kv => kv.1)
      = firstSeenList (results.flatMap (fun w => w.min_cut)) := by
  rw [buildCounter_flat, foldl_bump_keys]
  rfl

theorem firstSeenFold_nodup (l : List (String × String)) :
    ∀ acc : List (String × String), acc.Nodup →
      (l.foldl (fun ks e => if e ∈ ks then ks else ks ++ [e]) acc).Nodup := by
  induction l with
  | nil => intro acc h; simpa
  | cons x xs ih =>
    intro acc h
    rw [List.foldl_cons]
    apply ih
    by_cases hx : x ∈ acc
    · simpa [hx]
    · rw [if_neg hx]
      refine List.nodup_append.mpr ⟨h, List.nodup_singleton x, ?_⟩
      intro a ha hb
      rw [List.mem_singleton] at hb
      subst hb
      exact hx ha

theorem firstSeenList_nodup (l : List (String × String)) : (firstSeenList l).Nodup :=
  firstSeenFold_nodup l [] List.nodup_nil

theorem buildCounter_keys_nodup (results : List WindowResult) :
    ((buildCounter results).map (fun kv => kv.1)).Nodup := by
  rw [buildCounter_keys]
  exact firstSeenList_nodup _

theorem lookupCount_of_mem (counter : List ((String × String) × Nat))
    (hnd : (counter.map (fun kv => kv.1)).Nodup) (e : String × String) (c : Nat)
    (h : (e, c) ∈ counter) : lookupCount counter e = c := by
  induction counter with
  | nil => cases h
  | cons x rest ih =>
    rcases x with ⟨k, c0⟩
    rcases List.mem_cons.mp h with he | hm
    · have : k = e ∧ c0 = c := by
        constructor
        · exact (congrArg Prod.fst he).symm
        · exact (congrArg Prod.snd he).symm
      rcases this with ⟨rfl, rfl⟩
      simp [lookupCount, assocFind?]
    · rw [List.map_cons] at hnd
      have hk : k ≠ e := by
        rintro rfl
        have hin : k ∈ rest.map (fun kv => kv.1) := List.mem_map.mpr ⟨(k, c), hm, rfl⟩
        exact (List.nodup_cons.mp hnd).1 hin
      have hnd' : (rest.map (fun kv => kv.1)).Nodup := (List.nodup_cons.mp hnd).2
      simpa [lookupCount, assocFind?, hk] using ih hnd' hm

theorem firstSeenFold_mem (l : List (String × String)) :
    ∀ (acc : List (String × String)) (x : String × String),
      (x ∈ l.foldl (fun ks e => if e ∈ ks then ks else ks ++ [e]) acc
        ↔ x ∈ acc ∨ x ∈ l) := by
  induction l with
  | nil => intro acc x; simp
  | cons y ys ih =>
    intro acc x
    rw [List.foldl_cons, ih]
    by_cases hy : y ∈ acc
    · rw [if_pos hy]
      constructor
      · rintro (h | h)
        · exact .inl h
        · exact .inr (List.mem_cons_of_mem y h)
      · rintro (h | h)
        · exact .inl h
        · rcases List.mem_cons.mp h with rfl | h
          · exact .inl hy
          · exact .inr h
    · rw [if_neg hy]
      constructor
      · rintro (h | h)
        · rcases List.mem_append.mp h with h | h
          · exact .inl h
          · exact .inr (List.mem_cons.mpr (.inl (List.mem_singleton.mp h)))
        · exact .inr (List.mem_cons_of_mem y h)
      · rintro (h | h)
        · exact .inl (List.mem_append.mpr (.inl h))
        · rcases List.mem_cons.mp h with rfl | h
          · exact .inl (List.mem_append.mpr (.inr (List.mem_singleton.mpr rfl)))
          · exact .inr h

theorem idx_append_left (l l2 : List (String × String)) (a : String × String)
    (h : a ∈ l) : (l ++ l2).indexOf a = l.indexOf a := by
  induction l with
  | nil => cases h
  | cons x xs ih =>
    by_cases hx : x = a
    · subst hx
      simp [List.indexOf_cons]
    · have hb : (x == a) = false := by simpa using hx
      rcases List.mem_cons.mp h with he | hm
      · exact absurd he.symm hx
      · simp [List.indexOf_cons, hb, ih hm]

theorem idx_append_right (l l2 : List (String × String)) (a : String × String)
    (h : a ∉ l) : (l ++ l2).indexOf a = l.length + l2.indexOf a := by
  induction l with
  | nil => simp
  | cons x xs ih =>
    have hx : x ≠ a := by
      rintro rfl
      exact h (List.mem_cons_self x xs)
    have hb : (x == a) = false := by simpa using hx
    have hm : a ∉ xs := fun hc => h (List.mem_cons_of_mem x hc)
    simp [List.indexOf_cons, hb, ih hm]
    omega

theorem idx_lt_length (l : List (String × String)) (a : String × String)
    (h : a ∈ l) : l.indexOf a < l.length := by
  induction l with
  | nil => cases h
  | cons x xs ih =>
    by_cases hx : x = a
    · subst hx
      simp [List.indexOf_cons]
    · have hb : (x == a) = false := by simpa using hx
      rcases List.mem_cons.mp h with he | hm
      · exact absurd he.symm hx
      · simp [List.indexOf_cons, hb]
        exact ih hm

theorem mem_insertDesc (x y : (String × String) × Nat)
    (l : List ((String × String) × Nat)) :
    y ∈ insertDesc x l ↔ y = x ∨ y ∈ l := by
  induction l with
  | nil => simp [insertDesc]
  | cons z zs ih =>
    by_cases h : x.2 < z.2
    · simp only [insertDesc, if_pos h, List.mem_cons, ih]
      tauto
    · simp only [insertDesc, if_neg h, List.mem_cons]

theorem insertDesc_perm (x : (String × String) × Nat)
    (l : List ((String × String) × Nat)) : List.Perm (insertDesc x l) (x :: l) := by
  induction l with
  | nil => exact List.Perm.refl _
  | cons z zs ih =>
    by_cases h : x.2 < z.2
    · rw [insertDesc, if_pos h]
      exact ((ih.cons z).trans (List.Perm.swap x z zs))
    · rw [insertDesc, if_neg h]

theorem isortDesc_perm (l : List ((String × String) × Nat)) : List.Perm (isortDesc l) l := by
  induction l with
  | nil => exact List.Perm.refl _
  | cons x xs ih =>
    exact (insertDesc_perm x (isortDesc xs)).trans (ih.cons x)

theorem insertDesc_pairwise (x : (String × String) × Nat)
    (l : List ((String × String) × Nat))
    (h : l.Pairwise (fun a b => b.2 ≤ a.2)) :
    (insertDesc x l).Pairwise (fun a b => b.2 ≤ a.2) := by
  induction l with
  | nil => simp [insertDesc]
  | cons z zs ih =>
    rcases List.pairwise_cons.mp h with ⟨hz, hzs⟩
    by_cases hx : x.2 < z.2
    · rw [insertDesc, if_pos hx]
      refine List.pairwise_cons.mpr ⟨?_, ih hzs⟩
      intro y hy
      rcases (mem_insertDesc x y zs).mp hy with rfl | hm
      · exact le_of_lt hx
      · exact hz y hm
    · rw [insertDesc, if_neg hx]
      refine List.pairwise_cons.mpr ⟨?_, h⟩
      intro y hy
      rcases List.mem_cons.mp hy with rfl | hm
      · exact not_lt.mp hx
      · exact le_trans (hz y hm) (not_lt.mp hx)

theorem isortDesc_pairwise (l : List ((String × String) × Nat)) :
    (isortDesc l).Pairwise (fun a b => b.2 ≤ a.2) := by
  induction l with
  | nil => simp [isortDesc]
  | cons x xs ih => exact insertDesc_pairwise x (isortDesc xs) ih

theorem pair_sublist_cons (a b y : (String × String) × Nat)
    (rest : List ((String × String) × Nat)) :
    [a, b].Sublist (y :: rest) ↔ (a = y ∧ [b].Sublist rest) ∨ [a, b].Sublist rest := by
  constructor
  · intro h
    cases h with
    | cons _ h' => exact .inr h'
    | cons₂ _ h' => exact .inl ⟨rfl, h'⟩
  · rintro (⟨rfl, h⟩ | h)
    · exact h.cons₂ a
    · exact h.cons y

theorem insertDesc_pair_sub (x a b : (String × String) × Nat)
    (l : List ((String × String) × Nat))
    (hp : l.Pairwise (fun u v => v.2 ≤ u.2))
    (h : [a, b].Sublist (insertDesc x l)) :
    [a, b].Sublist l ∨ (a = x ∧ b ∈ l ∧ b.2 ≤ x.2) ∨ (b = x ∧ a ∈ l ∧ x.2 < a.2) := by
  induction l with
  | nil =>
    simp only [insertDesc] at h
    have := h.length_le
    simp at this
  | cons y ys ih =>
    rcases List.pairwise_cons.mp hp with ⟨hy, hys⟩
    by_cases hx : x.2 < y.2
    · rw [insertDesc, if_pos hx] at h
      rcases (pair_sublist_cons a b y (insertDesc x ys)).mp h with ⟨rfl, hb⟩ | hrest
      · have hbmem := List.singleton_sublist.mp hb
        rcases (mem_insertDesc x b ys).mp hbmem with rfl | hm
        · exact .inr (.inr ⟨rfl, List.mem_cons_self _ _, hx⟩)
        · exact .inl ((pair_sublist_cons a b a ys).mpr (.inl ⟨rfl, List.singleton_sublist.mpr hm⟩))
      · rcases ih hys hrest with hs | ⟨rfl, hm, hle⟩ | ⟨rfl, hm, hlt⟩
        · exact .inl (hs.cons y)
        · exact .inr (.inl ⟨rfl, List.mem_cons_of_mem y hm, hle⟩)
        · exact .inr (.inr ⟨rfl, List.mem_cons_of_mem y hm, hlt⟩)
    · rw [insertDesc, if_neg hx] at h
      rcases (pair_sublist_cons a b x (y :: ys)).mp h with ⟨rfl, hb⟩ | hrest
      · have hbmem := List.singleton_sublist.mp hb
        have hble : b.2 ≤ a.2 := by
          rcases List.mem_cons.mp hbmem with rfl | hm
          · exact not_lt.mp hx
          · exact le_trans (hy b hm) (not_lt.mp hx)
        exact .inr (.inl ⟨rfl, hbmem, hble⟩)
      · exact .inl hrest

theorem isortDesc_stable (l : List ((String × String) × Nat))
    (a b : (String × String) × Nat) (hab : a.2 = b.2)
    (h : [a, b].Sublist (isortDesc l)) : [a, b].Sublist l := by
  induction l with
  | nil =>
    simp only [isortDesc] at h
    have := h.length_le
    simp at this
  | cons x xs ih =>
    simp only [isortDesc] at h
    rcases insertDesc_pair_sub x a b (isortDesc xs) (isortDesc_pairwise xs) h with
      hs | ⟨rfl, hm, -⟩ | ⟨rfl, hm, hlt⟩
    · exact (ih hs).cons x
    · have : b ∈ xs := (isortDesc_perm xs).mem_iff.mp hm
      exact (List.singleton_sublist.mpr this).cons₂ a
    · rw [hab] at hlt
      exact absurd hlt (lt_irrefl _)

theorem mem_firstSeenList (l : List (String × String)) (x : String × String) :
    x ∈ firstSeenList l ↔ x ∈ l := by
  have h := firstSeenFold_mem l [] x
  simpa [firstSeenList] using h

theorem firstSeenList_concat (l : List (String × String)) (e : String × String) :
    firstSeenList (l ++ [e])
      = (if e ∈ firstSeenList l then firstSeenList l else firstSeenList l ++ [e]) := by
  rw [firstSeenList, List.foldl_append]
  rfl

theorem firstSeen_pair_idx (l : List (String × String)) :
    ∀ k1 k2 : String × String, [k1, k2].Sublist (firstSeenList l) →
      l.indexOf k1 < l.indexOf k2 := by
  induction l using List.reverseRecOn with
  | nil =>
    intro k1 k2 h
    have := h.length_le
    simp [firstSeenList] at this
  | append_singleton l e ih =>
    intro k1 k2 h
    rw [firstSeenList_concat] at h
    have hlift : [k1, k2].Sublist (firstSeenList l) →
        (l ++ [e]).indexOf k1 < (l ++ [e]).indexOf k2 := by
      intro hs
      have hm1 : k1 ∈ l := (mem_firstSeenList l k1).mp
        (hs.subset (List.mem_cons_self k1 [k2]))
      have hm2 : k2 ∈ l := (mem_firstSeenList l k2).mp
        (hs.subset (List.mem_cons_of_mem k1 (List.mem_singleton.mpr rfl)))
      rw [idx_append_left l [e] k1 hm1, idx_append_left l [e] k2 hm2]
      exact ih k1 k2 hs
    by_cases he : e ∈ firstSeenList l
    · rw [if_pos he] at h
      exact hlift h
    · rw [if_neg he] at h
      rcases List.sublist_append_iff.mp h with ⟨u, v, huv, hu, hv⟩
      cases v with
      | nil =>
        rw [List.append_nil] at huv
        subst huv
        exact hlift hu
      | cons v0 vt =>
        have hv0 : v0 = e ∧ vt = [] := by
          cases hv with
          | cons _ h' =>
            have := h'.length_le
            simp at this
          | cons₂ _ h' =>
            exact ⟨rfl, List.sublist_nil.mp h'⟩
        rcases hv0 with ⟨rfl, rfl⟩
        cases u with
        | nil =>
          simp at huv
        | cons u0 ut =>
          have h1 : k1 = u0 := by
            have := congrArg (fun x => x.head?) huv
            simpa using this
          cases ut with
          | nil =>
            have h2 : k2 = v0 := by
              have := congrArg (fun x => x.tail) huv
              simpa using this
            subst h1
            subst h2
            have hm1 : k1 ∈ l := (mem_firstSeenList l k1).mp
              (hu.subset (List.mem_singleton.mpr rfl))
            have hk2 : k2 ∉ l := fun hc => he ((mem_firstSeenList l k2).mpr hc)
            rw [idx_append_left l [k2] k1 hm1, idx_append_right l [k2] k2 hk2]
            have : ([k2] : List (String × String)).indexOf k2 = 0 := by
              simp [List.indexOf_cons]
            rw [this, Nat.add_zero]
            exact idx_lt_length l k1 hm1
          | cons u1 ut' =>
            have := congrArg List.length huv
            simp at this

theorem count_one_of_nodup_mem (a : String × String) (l : List (String × String))
    (hnd : l.Nodup) (h : a ∈ l) : l.count a = 1 := by
  induction l with
  | nil => cases h
  | cons x xs ih =>
    rcases List.nodup_cons.mp hnd with ⟨hx, hxs⟩
    rcases List.mem_cons.mp h with rfl | hm
    · have hz : xs.count a = 0 := by
        rw [List.count_eq_zero]
        exact hx
      rw [List.count_cons, hz]
      simp
    · have hne : (x == a) = false := by
        have : x ≠ a := by rintro rfl; exact hx hm
        simpa using this
      rw [List.count_cons, hne, ih hxs hm]
      simp

theorem count_zero_of_not_mem (a : String × String) (l : List (String × String))
    (h : a ∉ l) : l.count a = 0 := by
  rw [List.count_eq_zero]
  exact h

theorem count_flatMap (e : String × String) (ls : List WindowResult) :
    (ls.flatMap (fun w => w.min_cut)).count e
      = (ls.map (fun w => w.min_cut.count e)).sum := by
  induction ls with
  | nil => rfl
  | cons w ws ih =>
    rw [List.flatMap_cons, List.count_append, ih, List.map_cons, List.sum_cons]

theorem sum_window_indicator (e : String × String) (results : List WindowResult) :
    (results.map (fun w => if e ∈ w.min_cut then 1 else 0)).sum
      = (results.filter (fun w => decide (e ∈ w.min_cut))).length := by
  induction results with
  | nil => rfl
  | cons w ws ih =>
    by_cases h : e ∈ w.min_cut
    · simp [List.filter_cons, h, ih, Nat.add_comm]
    · simp [List.filter_cons, h, ih]

/-- **C4 counterexample**: a single window whose `min_cut` lists the same edge
twice (which `analyze_time_windows` never produces, but the claim quantifies
over every window-result list) is counted twice by `aggregate_bottlenecks`,
not once per window. -/
theorem aggregate_double_count_counterexample :
    ((("a", "b"), 2) ∈ aggregate_bottlenecks
        [⟨0, 0, 0, [("a", "b"), ("a", "b")], 0⟩] 10) ∧
    (([⟨0, 0, 0, [("a", "b"), ("a", "b")], 0⟩] : List WindowResult).filter
        (fun w => decide (("a", "b") ∈ w.min_cut))).length = 1 ∧
    (2 : Nat) ≠ 1 := by
  refine ⟨?_, ?_, by norm_num⟩
  · simp [aggregate_bottlenecks, buildCounter, bump, isortDesc, insertDesc,
      lookupCount, assocFind?]
  · simp [List.filter_cons]

/-- **C4 (amended)**: for window-result lists whose per-window `min_cut` lists
are duplicate-free (as `analyze_time_windows` produces them),
`aggregate_bottlenecks` returns at most `min(topK, #distinct edges seen)`
entries; each listed edge's count is the number of windows whose `min_cut`
contains it; entries are sorted descending by count; and entries with equal
counts appear in the chronological order in which their edge was first seen
(position of first occurrence in the concatenated cut stream).  Without the
duplicate-freedom hypothesis an edge repeated inside one window is counted
once per occurrence. -/
theorem aggregate_bottlenecks_ranked (results : List WindowResult) (topK : Nat)
    (hnd : ∀ w ∈ results, w.min_cut.Nodup) :
    (aggregate_bottlenecks results topK).length
        ≤ min topK (firstSeenList (results.flatMap (fun w => w.min_cut))).length ∧
    (∀ e c, (e, c) ∈ aggregate_bottlenecks results topK →
        c = (results.filter (fun w => decide (e ∈ w.min_cut))).length) ∧
    (aggregate_bottlenecks results topK).Pairwise (fun x y => y.2 ≤ x.2) ∧
    (∀ x y, [x, y].Sublist (aggregate_bottlenecks results topK) → x.2 = y.2 →
        (results.flatMap (fun w => w.min_cut)).indexOf x.1
          < (results.flatMap (fun w => w.min_cut)).indexOf y.1) := by
  refine ⟨?_, ?_, ?_, ?_⟩
  · rw [aggregate_bottlenecks, List.length_take,
      (isortDesc_perm (buildCounter results)).length_eq]
    have : (buildCounter results).length
        = (firstSeenList (results.flatMap (fun w => w.min_cut))).length := by
      rw [← buildCounter_keys, List.length_map]
    omega
  · intro e c hmem
    have hcnt : (e, c) ∈ buildCounter results :=
      (isortDesc_perm (buildCounter results)).mem_iff.mp
        (List.mem_of_mem_take hmem)
    have hc : lookupCount (buildCounter results) e = c :=
      lookupCount_of_mem _ (buildCounter_keys_nodup results) e c hcnt
    have hflat : lookupCount (buildCounter results) e
        = (results.flatMap (fun w => w.min_cut)).count e := by
      rw [buildCounter_flat, lookupCount_foldl_bump]
      simp [lookupCount, assocFind?]
    rw [← hc, hflat, count_flatMap, ← sum_window_indicator]
    congr 1
    apply List.map_congr_left
    intro w hw
    by_cases h : e ∈ w.min_cut
    · rw [if_pos h, count_one_of_nodup_mem e w.min_cut (hnd w hw) h]
    · rw [if_neg h, count_zero_of_not_mem e w.min_cut h]
  · exact List.Pairwise.sublist (List.take_sublist _ _) (isortDesc_pairwise _)
  · intro x y hxy hcnt
    have hsort : [x, y].Sublist (isortDesc (buildCounter results)) :=
      hxy.trans (List.take_sublist _ _)
    have hcounter := isortDesc_stable (buildCounter results) x y hcnt hsort
    have hkeys : [x.1, y.1].Sublist ((buildCounter results).map (fun kv => kv.1)) := by
      have := hcounter.map (fun kv => kv.1)
      simpa using this
    rw [buildCounter_keys] at hkeys
    exact firstSeen_pair_idx _ x.1 y.1 hkeys

/-- Witness for C4 (amended): the spec §8 aggregation scenario — windows 1
and 2 cut edge `(X, Y)`, window 3 cuts nothing, `topK = 1`. -/
theorem aggregate_bottlenecks_ranked_witness :
    aggregate_bottlenecks
        [⟨0, 0, 0, [("X", "Y")], 0⟩, ⟨0, 0, 0, [("X", "Y")], 0⟩, ⟨0, 0, 0, [], 0⟩] 1
      = [(("X", "Y"), 2)] ∧
    (∀ e c, (e, c) ∈ aggregate_bottlenecks
        [⟨0, 0, 0, [("X", "Y")], 0⟩, ⟨0, 0, 0, [("X", "Y")], 0⟩, ⟨0, 0, 0, [], 0⟩] 1 →
      c = (([⟨0, 0, 0, [("X", "Y")], 0⟩, ⟨0, 0, 0, [("X", "Y")], 0⟩,
            ⟨0, 0, 0, [], 0⟩] : List WindowResult).filter
          (fun w => decide (e ∈ w.min_cut))).length) := by
  constructor
  · simp [aggregate_bottlenecks, buildCounter, bump, isortDesc, insertDesc]
  · exact (aggregate_bottlenecks_ranked
      [⟨0, 0, 0, [("X", "Y")], 0⟩, ⟨0, 0, 0, [("X", "Y")], 0⟩, ⟨0, 0, 0, [], 0⟩] 1
      (by simp)).2.1

/-- **C9 counterexample**: during one analysis cycle the reader-visible state
after the first critical section (runtime_server.py lines 77-79) carries the
new `latest_windows`/`latest_bottlenecks` but still the previous
`latest_graph` (only updated at lines 138-139) — a mix of two cycles, not the
prior complete triple and not the new one. -/
theorem torn_publication_counterexample :
    (⟨1, 1, 0⟩ : LiveTriple) ∈ observations ⟨0, 0, 0⟩ (cycleSteps 1 true) ∧
    (⟨1, 1, 0⟩ : LiveTriple) ≠ uniformTriple 0 ∧
    (⟨1, 1, 0⟩ : LiveTriple) ≠ uniformTriple 1 := by
  refine ⟨?_, by decide, by decide⟩
  simp [observations, cycleSteps, applyPub, List.scanl]

/-- **C9 (amended)**: only the `latest_windows`/`latest_bottlenecks` pair is
published atomically (they always carry the same cycle); the live-view graph
projection is published in a separate later critical section, so a reader can
observe the new windows and bottlenecks combined with the previous cycle's
graph projection (the torn state exhibited by the counterexample). -/
theorem publication_pairwise_atomic (steps : List PubStep) (st : LiveTriple)
    (h : st.windows = st.bottlenecks) :
    ∀ st' ∈ observations st steps, st'.windows = st'.bottlenecks := by
  induction steps generalizing st with
  | nil =>
    intro st' hst'
    simp [observations, List.scanl] at hst'
    subst hst'
    exact h
  | cons s ss ih =>
    intro st' hst'
    rw [observations, List.scanl] at hst'
    rcases List.mem_cons.mp hst' with rfl | hm
    · exact h
    · refine ih (applyPub st s) ?_ st' hm
      cases s with
      | results n => rfl
      | graphView n => exact h

/-- Witness for C9 (amended): the torn state observable between the two
critical sections of cycle 1 still keeps windows and bottlenecks in lockstep. -/
theorem publication_pairwise_atomic_witness :
    (⟨1, 1, 0⟩ : LiveTriple) ∈ observations ⟨0, 0, 0⟩ (cycleSteps 1 true) ∧
    (⟨1, 1, 0⟩ : LiveTriple).windows = (⟨1, 1, 0⟩ : LiveTriple).bottlenecks :=
  ⟨by decide,
    publication_pairwise_atomic (cycleSteps 1 true) ⟨0, 0, 0⟩ rfl ⟨1, 1, 0⟩ (by decide)⟩

/-! ### Solver lemmas: path search -/

namespace FlowSolver

theorem firstSome?_eq_none {α β : Type} (f : α → Option β) (l : List α) :
    firstSome? f l = none ↔ ∀ a ∈ l, f a = none := by
  induction l with
  | nil => simp [firstSome?]
  | cons x xs ih =>
    rw [firstSome?]
    cases hx : f x with
    | none => simp [hx, Option.elim, ih]
    | some b => simp [hx, Option.elim]

theorem firstSome?_eq_some {α β : Type} (f : α → Option β) (l : List α) (b : β)
    (h : firstSome? f l = some b) : ∃ a ∈ l, f a = some b := by
  induction l with
  | nil => cases h
  | cons x xs ih =>
    rw [firstSome?] at h
    cases hx : f x with
    | none =>
      rw [hx] at h
      obtain ⟨a, ha, hfa⟩ := ih h
      exact ⟨a, List.mem_cons_of_mem x ha, hfa⟩
    | some b0 =>
      rw [hx] at h
      exact ⟨x, List.mem_cons_self x xs, hx.trans h⟩

theorem firstSome?_isSome_of_mem {α β : Type} (f : α → Option β) (l : List α)
    (a : α) (ha : a ∈ l) (hf : (f a).isSome) : (firstSome? f l).isSome := by
  cases hres : firstSome? f l with
  | some b => rfl
  | none =>
    rw [firstSome?_eq_none] at hres
    rw [hres a ha] at hf
    cases hf

theorem findAugPathF_sound (r : String → String → ℚ) :
    ∀ (fuel : Nat) (allowed : List String) (u t : String) (p : List String),
      findAugPathF r fuel allowed u t = some p →
      (∃ p', p = u :: p') ∧ p.getLast? = some t ∧
        List.Chain' (fun a b => 0 < r a b) p ∧
        (∀ x ∈ p, x = u ∨ x ∈ allowed) ∧
        (allowed.Nodup → u ∉ allowed → p.Nodup) := by
  intro fuel
  induction fuel with
  | zero => intro allowed u t p h; cases h
  | succ n ih =>
    intro allowed u t p h
    rw [findAugPathF] at h
    by_cases hut : u = t
    · rw [if_pos hut] at h
      have hp : p = [u] := by
        have := (Option.some.injEq _ _).mp h
        exact this.symm
      subst hp
      subst hut
      refine ⟨⟨[], rfl⟩, rfl, List.chain'_singleton u, ?_, fun _ _ => List.nodup_singleton u⟩
      intro x hx
      exact .inl (List.mem_singleton.mp hx)
    · rw [if_neg hut] at h
      obtain ⟨v, hv, hfv⟩ := firstSome?_eq_some _ _ _ h
      by_cases hr : 0 < r u v
      · rw [if_pos hr] at hfv
        obtain ⟨p', hp', hmap⟩ := Option.map_eq_some'.mp hfv
        obtain ⟨⟨p'', hp''⟩, hlast, hchain, hmem, hnd⟩ := ih (allowed.erase v) v t p' hp'
        subst hmap
        refine ⟨⟨p', rfl⟩, ?_, ?_, ?_, ?_⟩
        · rw [hp''] at hlast ⊢
          rw [List.getLast?_cons_cons]
          exact hlast
        · rw [hp'']
          rw [hp''] at hchain
          exact List.Chain'.cons hr hchain
        · intro x hx
          rcases List.mem_cons.mp hx with rfl | hx'
          · exact .inl rfl
          · rcases hmem x hx' with rfl | hx''
            · exact .inr hv
            · exact .inr (List.mem_of_mem_erase hx'')
        · intro hndA huA
          have hnd' : p'.Nodup := hnd (hndA.erase v) (hndA.not_mem_erase)
          refine List.nodup_cons.mpr ⟨?_, hnd'⟩
          intro hu
          rcases hmem u hu with rfl | hx''
          · exact huA hv
          · exact huA (List.mem_of_mem_erase hx'')
      · rw [if_neg hr] at hfv
        cases hfv

end FlowSolver

namespace FlowSolver

theorem RPath.complete (r : String → String → ℚ) {allowed : List String}
    {u t : String} (h : RPath r allowed u t) :
    ∀ fuel, allowed.length < fuel → (findAugPathF r fuel allowed u t).isSome := by
  induction h with
  | refl allowed t =>
    intro fuel hf
    cases fuel with
    | zero => exact absurd hf (Nat.not_lt_zero _)
    | succ n =>
      rw [findAugPathF, if_pos rfl]
      rfl
  | step allowed u v t hv hr hpath ih =>
    intro fuel hf
    cases fuel with
    | zero => exact absurd hf (Nat.not_lt_zero _)
    | succ n =>
      rw [findAugPathF]
      by_cases hut : u = t
      · rw [if_pos hut]; rfl
      · rw [if_neg hut]
        have hlen : (allowed.erase v).length < n := by
          rw [List.length_erase_of_mem hv]
          have hpos : 0 < allowed.length := List.length_pos.mpr (List.ne_nil_of_mem hv)
          omega
        have hrec := ih n hlen
        apply firstSome?_isSome_of_mem _ allowed v hv
        rw [if_pos hr]
        rw [Option.isSome_map']
        exact hrec

theorem RPath.of_findAugPathF (r : String → String → ℚ) :
    ∀ (fuel : Nat) (allowed : List String) (u t : String),
      (findAugPathF r fuel allowed u t).isSome → RPath r allowed u t := by
  intro fuel
  induction fuel with
  | zero => intro allowed u t h; cases h
  | succ n ih =>
    intro allowed u t h
    rw [findAugPathF] at h
    by_cases hut : u = t
    · subst hut
      exact RPath.refl allowed u
    · rw [if_neg hut] at h
      obtain ⟨p, hp⟩ := Option.isSome_iff_exists.mp h
      obtain ⟨v, hv, hfv⟩ := firstSome?_eq_some _ _ _ hp
      by_cases hr : 0 < r u v
      · rw [if_pos hr] at hfv
        obtain ⟨p', hp', -⟩ := Option.map_eq_some'.mp hfv
        exact RPath.step allowed u v t hv hr (ih (allowed.erase v) v t (by rw [hp']; rfl))
      · rw [if_neg hr] at hfv
        cases hfv

theorem RPath.weaken (r : String → String → ℚ) {A : List String} {u t : String}
    (h : RPath r A u t) : ∀ B, A.Subperm B → RPath r B u t := by
  induction h with
  | refl allowed t => intro B hB; exact RPath.refl B t
  | step allowed u v t hv hr hpath ih =>
    intro B hB
    exact RPath.step B u v t (hB.subset hv) hr (ih (B.erase v) (hB.erase v))

theorem RPath.extend (r : String → String → ℚ) {A : List String} {s u : String}
    (h : RPath r A s u) :
    ∀ v, 0 < r u v → v ∈ A → RPath r A s v := by
  induction h with
  | refl allowed t =>
    intro v hr hv
    exact RPath.step allowed t v v hv hr (RPath.refl _ v)
  | step allowed u w t hw hr hpath ih =>
    intro v hrv hv
    by_cases hvw : v = w
    · subst hvw
      exact RPath.step allowed u v v hw hr (RPath.refl _ v)
    · have hv' : v ∈ allowed.erase w := (List.mem_erase_of_ne hvw).mpr hv
      exact RPath.step allowed u w v hw hr (ih v hrv hv')

end FlowSolver

/-! ### Solver lemmas: augmentation arithmetic -/

namespace FlowSolver

theorem cnt_nil (a : String × String) : cnt a [] = 0 := rfl

theorem cnt_cons (a q : String × String) (l : List (String × String)) :
    cnt a (q :: l) = (if q = a then 1 else 0) + cnt a l := rfl

theorem cnt_eq_zero (a : String × String) :
    ∀ l : List (String × String), a ∉ l → cnt a l = 0 := by
  intro l
  induction l with
  | nil => intro _; rfl
  | cons q l ih =>
    intro h
    have hq : ¬ q = a := by
      intro he
      exact h (by rw [← he]; exact List.mem_cons_self q l)
    have hl : a ∉ l := fun hm => h (List.mem_cons_of_mem q hm)
    rw [cnt_cons, if_neg hq, ih hl]

theorem cnt_eq_one (a : String × String) :
    ∀ l : List (String × String), l.Nodup → a ∈ l → cnt a l = 1 := by
  intro l
  induction l with
  | nil => intro _ h; cases h
  | cons q l ih =>
    intro hnd hm
    rcases List.nodup_cons.mp hnd with ⟨hq, hl⟩
    rcases List.mem_cons.mp hm with rfl | hm'
    · rw [cnt_cons, if_pos rfl, cnt_eq_zero a l hq]
    · have hqa : ¬ q = a := by
        intro he
        exact hq (by rw [he]; exact hm')
      rw [cnt_cons, if_neg hqa, ih hl hm']

theorem mem_consecPairs (a b : String) :
    ∀ p : List String, (a, b) ∈ consecPairs p → a ∈ p.dropLast ∧ b ∈ p.tail := by
  intro p
  induction p with
  | nil => intro h; cases h
  | cons u rest ih =>
    cases rest with
    | nil => intro h; cases h
    | cons v rs =>
      intro h
      rcases List.mem_cons.mp h with he | hm
      · have ha : a = u := congrArg Prod.fst he
        have hb : b = v := congrArg Prod.snd he
        subst ha; subst hb
        constructor
        · rw [List.dropLast_cons₂]
          exact List.mem_cons_self _ _
        · exact List.mem_cons_self _ _
      · obtain ⟨h1, h2⟩ := ih hm
        constructor
        · rw [List.dropLast_cons₂]
          exact List.mem_cons_of_mem _ h1
        · exact List.mem_cons_of_mem _ h2

theorem mem_of_mem_consecPairs (a b : String) (p : List String)
    (h : (a, b) ∈ consecPairs p) : a ∈ p ∧ b ∈ p := by
  obtain ⟨h1, h2⟩ := mem_consecPairs a b p h
  exact ⟨(List.dropLast_sublist p).subset h1, (List.tail_sublist p).subset h2⟩

theorem map_fst_consecPairs :
    ∀ p : List String, (consecPairs p).map Prod.fst = p.dropLast := by
  intro p
  induction p with
  | nil => rfl
  | cons u rest ih =>
    cases rest with
    | nil => rfl
    | cons v rs =>
      have hpairs : consecPairs (u :: v :: rs) = (u, v) :: consecPairs (v :: rs) := rfl
      rw [hpairs, List.map_cons, ih, List.dropLast_cons₂]

theorem consecPairs_nodup (p : List String) (h : p.Nodup) :
    (consecPairs p).Nodup := by
  have hm : ((consecPairs p).map Prod.fst).Nodup := by
    rw [map_fst_consecPairs]
    exact h.sublist (List.dropLast_sublist p)
  exact hm.of_map

theorem consecPairs_antisymm (x y : String) :
    ∀ p : List String, p.Nodup → (x, y) ∈ consecPairs p → (y, x) ∉ consecPairs p := by
  intro p
  induction p with
  | nil => intro _ h; cases h
  | cons u rest ih =>
    cases rest with
    | nil => intro _ h; cases h
    | cons v rs =>
      intro hnd hxy hyx
      have hpairs : consecPairs (u :: v :: rs) = (u, v) :: consecPairs (v :: rs) := rfl
      rcases List.nodup_cons.mp hnd with ⟨hu, hnd'⟩
      rw [hpairs] at hxy hyx
      rcases List.mem_cons.mp hxy with he | hm
      · have hx : x = u := congrArg Prod.fst he
        have hy : y = v := congrArg Prod.snd he
        rcases List.mem_cons.mp hyx with he2 | hm2
        · have hx2 : x = v := congrArg Prod.snd he2
          have huv : u = v := hx.symm.trans hx2
          exact hu (by rw [huv]; exact List.mem_cons_self v rs)
        · have hx3 : x ∈ v :: rs := (mem_of_mem_consecPairs y x _ hm2).2
          exact hu (by rw [← hx]; exact hx3)
      · rcases List.mem_cons.mp hyx with he2 | hm2
        · have hy2 : y = u := congrArg Prod.fst he2
          have hy3 : y ∈ v :: rs := (mem_of_mem_consecPairs x y _ hm).2
          exact hu (by rw [← hy2]; exact hy3)
        · exact ih hnd' hm hm2

theorem augPath_apply (b : ℚ) :
    ∀ (p : List String) (f : String → String → ℚ) (x y : String),
      augPath f p b x y
        = f x y + b * (cnt (x, y) (consecPairs p) : ℚ)
          - b * (cnt (y, x) (consecPairs p) : ℚ) := by
  intro p
  induction p with
  | nil => intro f x y; simp [augPath, consecPairs, cnt]
  | cons u rest ih =>
    cases rest with
    | nil => intro f x y; simp [augPath, consecPairs, cnt]
    | cons v rs =>
      intro f x y
      have hstep : augPath f (u :: v :: rs) b = augPath (augEdge f u v b) (v :: rs) b := rfl
      have hpairs : consecPairs (u :: v :: rs) = (u, v) :: consecPairs (v :: rs) := rfl
      rw [hstep, ih (augEdge f u v b) x y, hpairs, cnt_cons, cnt_cons]
      unfold augEdge
      have hx1 : ((u, v) = (x, y)) ↔ (x = u ∧ y = v) := by
        constructor
        · intro h; exact ⟨(congrArg Prod.fst h).symm, (congrArg Prod.snd h).symm⟩
        · rintro ⟨rfl, rfl⟩; rfl
      have hx2 : ((u, v) = (y, x)) ↔ (x = v ∧ y = u) := by
        constructor
        · intro h; exact ⟨(congrArg Prod.snd h).symm, (congrArg Prod.fst h).symm⟩
        · rintro ⟨rfl, rfl⟩; rfl
      rw [if_congr hx1 rfl rfl, if_congr hx2 rfl rfl]
      by_cases h1 : x = u ∧ y = v <;> by_cases h2 : x = v ∧ y = u <;>
        simp only [h1, h2, if_pos, if_neg, not_false_iff, iff_true, iff_false] <;>
        push_cast <;> ring_nf <;> simp [h1, h2] <;> push_cast <;> ring

theorem pathMin_le (r : String → String → ℚ) :
    ∀ (p : List String) (x y : String), (x, y) ∈ consecPairs p → pathMin r p ≤ r x y := by
  intro p
  induction p with
  | nil => intro x y h; cases h
  | cons u rest ih =>
    cases rest with
    | nil => intro x y h; cases h
    | cons v rs =>
      intro x y h
      have hpairs : consecPairs (u :: v :: rs) = (u, v) :: consecPairs (v :: rs) := rfl
      rw [hpairs] at h
      rcases List.mem_cons.mp h with he | hm
      · have hx : x = u := congrArg Prod.fst he
        have hy : y = v := congrArg Prod.snd he
        subst hx; subst hy
        cases rs with
        | nil => exact le_refl _
        | cons w ws =>
          have : pathMin r (x :: y :: w :: ws) = min (r x y) (pathMin r (y :: w :: ws)) := rfl
          rw [this]
          exact min_le_left _ _
      · cases rs with
        | nil => cases hm
        | cons w ws =>
          have : pathMin r (u :: v :: w :: ws) = min (r u v) (pathMin r (v :: w :: ws)) := rfl
          rw [this]
          exact le_trans (min_le_right _ _) (ih x y hm)

theorem pathMin_nonneg (r : String → String → ℚ) :
    ∀ p : List String, p.Chain' (fun a b => 0 < r a b) → 0 ≤ pathMin r p := by
  intro p
  induction p with
  | nil => intro _; exact le_refl 0
  | cons u rest ih =>
    cases rest with
    | nil => intro _; exact le_refl 0
    | cons v rs =>
      intro hch
      rcases List.chain'_cons.mp hch with ⟨hr, hch'⟩
      cases rs with
      | nil => exact le_of_lt hr
      | cons w ws =>
        have : pathMin r (u :: v :: w :: ws) = min (r u v) (pathMin r (v :: w :: ws)) := rfl
        rw [this]
        exact le_min (le_of_lt hr) (ih hch')

end FlowSolver

/-! ### Solver lemmas: the flow invariant is preserved by augmentation -/

namespace FlowSolver

theorem sum_indicator_pair (q : String × String) (u : String)
    (V : List String) (hV : V.Nodup) (hq1 : q.1 = u) (hq2 : q.2 ∈ V) :
    (V.map (fun w => if q = (u, w) then (1 : ℚ) else 0)).sum = 1 := by
  have hcong : V.map (fun w => if q = (u, w) then (1 : ℚ) else 0)
      = V.map (fun w => if q.2 = w then (1 : ℚ) else 0) := by
    apply List.map_congr_left
    intro w _
    apply if_congr _ rfl rfl
    constructor
    · intro h; exact congrArg Prod.snd h
    · intro h
      have he : q = (q.1, q.2) := rfl
      rw [he, hq1, h]
  rw [hcong]
  exact sum_ite_single V q.2 1 hV hq2

theorem sum_indicator_pair_zero (q : String × String) (u : String)
    (V : List String) (hq1 : q.1 ≠ u) :
    (V.map (fun w => if q = (u, w) then (1 : ℚ) else 0)).sum = 0 := by
  have hcong : V.map (fun w => if q = (u, w) then (1 : ℚ) else 0)
      = V.map (fun _ => (0 : ℚ)) := by
    apply List.map_congr_left
    intro w _
    apply if_neg
    intro h
    exact hq1 (congrArg Prod.fst h)
  rw [hcong]
  simp

theorem sum_indicator_pair_snd (q : String × String) (u : String)
    (V : List String) (hV : V.Nodup) (hq2 : q.2 = u) (hq1 : q.1 ∈ V) :
    (V.map (fun w => if q = (w, u) then (1 : ℚ) else 0)).sum = 1 := by
  have hcong : V.map (fun w => if q = (w, u) then (1 : ℚ) else 0)
      = V.map (fun w => if q.1 = w then (1 : ℚ) else 0) := by
    apply List.map_congr_left
    intro w _
    apply if_congr _ rfl rfl
    constructor
    · intro h; exact congrArg Prod.fst h
    · intro h
      have he : q = (q.1, q.2) := rfl
      rw [he, hq2, h]
  rw [hcong]
  exact sum_ite_single V q.1 1 hV hq1

theorem sum_indicator_pair_snd_zero (q : String × String) (u : String)
    (V : List String) (hq2 : q.2 ≠ u) :
    (V.map (fun w => if q = (w, u) then (1 : ℚ) else 0)).sum = 0 := by
  have hcong : V.map (fun w => if q = (w, u) then (1 : ℚ) else 0)
      = V.map (fun _ => (0 : ℚ)) := by
    apply List.map_congr_left
    intro w _
    apply if_neg
    intro h
    exact hq2 (congrArg Prod.snd h)
  rw [hcong]
  simp

theorem sum_cnt_fst (u : String) :
    ∀ (L : List (String × String)) (V : List String), V.Nodup → (∀ q ∈ L, q.2 ∈ V) →
      (V.map (fun w => (cnt (u, w) L : ℚ))).sum
        = ((L.filter (fun q => decide (q.1 = u))).length : ℚ) := by
  intro L
  induction L with
  | nil => intro V _ _; simp [cnt]
  | cons q L ih =>
    intro V hV hmem
    have hsplit : V.map (fun w => (cnt (u, w) (q :: L) : ℚ))
        = V.map (fun w => (if q = (u, w) then (1 : ℚ) else 0) + (cnt (u, w) L : ℚ)) := by
      apply List.map_congr_left
      intro w _
      rw [cnt_cons]
      push_cast
      ring
    rw [hsplit, sum_map_add, ih V hV (fun r hr => hmem r (List.mem_cons_of_mem q hr))]
    by_cases hq : q.1 = u
    · rw [sum_indicator_pair q u V hV hq (hmem q (List.mem_cons_self q L))]
      simp [List.filter_cons, hq]
      ring
    · rw [sum_indicator_pair_zero q u V hq]
      simp [List.filter_cons, hq]

theorem sum_cnt_snd (u : String) :
    ∀ (L : List (String × String)) (V : List String), V.Nodup → (∀ q ∈ L, q.1 ∈ V) →
      (V.map (fun w => (cnt (w, u) L : ℚ))).sum
        = ((L.filter (fun q => decide (q.2 = u))).length : ℚ) := by
  intro L
  induction L with
  | nil => intro V _ _; simp [cnt]
  | cons q L ih =>
    intro V hV hmem
    have hsplit : V.map (fun w => (cnt (w, u) (q :: L) : ℚ))
        = V.map (fun w => (if q = (w, u) then (1 : ℚ) else 0) + (cnt (w, u) L : ℚ)) := by
      apply List.map_congr_left
      intro w _
      rw [cnt_cons]
      push_cast
      ring
    rw [hsplit, sum_map_add, ih V hV (fun r hr => hmem r (List.mem_cons_of_mem q hr))]
    by_cases hq : q.2 = u
    · rw [sum_indicator_pair_snd q u V hV hq (hmem q (List.mem_cons_self q L))]
      simp [List.filter_cons, hq]
      ring
    · rw [sum_indicator_pair_snd_zero q u V hq]
      simp [List.filter_cons, hq]

theorem length_filter_fst_eq (u : String) :
    ∀ p : List String, p.Nodup →
      ((consecPairs p).filter (fun q => decide (q.1 = u))).length
        = if u ∈ p.dropLast then 1 else 0 := by
  intro p
  induction p with
  | nil => intro _; rfl
  | cons u0 rest ih =>
    cases rest with
    | nil => intro _; rfl
    | cons v rs =>
      intro hnd
      rcases List.nodup_cons.mp hnd with ⟨hu0, hnd'⟩
      have hpairs : consecPairs (u0 :: v :: rs) = (u0, v) :: consecPairs (v :: rs) := rfl
      rw [hpairs, List.filter_cons, List.dropLast_cons₂]
      by_cases hq : u0 = u
      · subst hq
        have hnil : (consecPairs (v :: rs)).filter (fun q => decide (q.1 = u0)) = [] := by
          rw [List.filter_eq_nil_iff]
          intro q hq'
          simp only [decide_eq_true_eq]
          intro he
          have h1 : q.1 ∈ v :: rs := (mem_of_mem_consecPairs q.1 q.2 _ hq').1
          rw [he] at h1
          exact hu0 h1
        simp [hnil]
      · have hcond : ¬ (decide ((u0, v).1 = u) = true) := by simpa using hq
        rw [if_neg hcond, ih hnd']
        have hiff : (u ∈ u0 :: (v :: rs).dropLast) ↔ u ∈ (v :: rs).dropLast := by
          rw [List.mem_cons]
          constructor
          · rintro (he | h)
            · exact absurd he.symm hq
            · exact h
          · exact Or.inr
        rw [if_congr hiff rfl rfl]

theorem length_filter_snd_eq (u : String) :
    ∀ p : List String, p.Nodup →
      ((consecPairs p).filter (fun q => decide (q.2 = u))).length
        = if u ∈ p.tail then 1 else 0 := by
  intro p
  induction p with
  | nil => intro _; rfl
  | cons u0 rest ih =>
    cases rest with
    | nil => intro _; rfl
    | cons v rs =>
      intro hnd
      rcases List.nodup_cons.mp hnd with ⟨hu0, hnd'⟩
      rcases List.nodup_cons.mp hnd' with ⟨hv, hnd''⟩
      have hpairs : consecPairs (u0 :: v :: rs) = (u0, v) :: consecPairs (v :: rs) := rfl
      rw [hpairs, List.filter_cons]
      by_cases hq : v = u
      · subst hq
        have hnil : (consecPairs (v :: rs)).filter (fun q => decide (q.2 = v)) = [] := by
          rw [List.filter_eq_nil_iff]
          intro q hq'
          simp only [decide_eq_true_eq]
          intro he
          have h2 : q.2 ∈ (v :: rs).tail := (mem_consecPairs q.1 q.2 _ hq').2
          rw [he] at h2
          exact hv h2
        simp [hnil]
      · have hcond : ¬ (decide ((u0, v).2 = u) = true) := by simpa using hq
        rw [if_neg hcond, ih hnd']
        have hiff : (u ∈ (u0 :: v :: rs).tail) ↔ u ∈ (v :: rs).tail := by
          show (u ∈ v :: rs) ↔ u ∈ rs
          rw [List.mem_cons]
          constructor
          · rintro (he | h)
            · exact absurd he.symm hq
            · exact h
          · exact Or.inr
        rw [if_congr hiff rfl rfl]

theorem mem_dropLast_iff_mem_tail (p' : List String) (s t u : String)
    (_hnd : (s :: p').Nodup) (hlast : (s :: p').getLast? = some t)
    (hus : u ≠ s) (hut : u ≠ t) :
    (u ∈ (s :: p').dropLast ↔ u ∈ (s :: p').tail) := by
  have hne : (s :: p') ≠ [] := List.cons_ne_nil s p'
  have hlast' : (s :: p').getLast hne = t := by
    have hg := List.getLast?_eq_getLast (s :: p') hne
    rw [hg] at hlast
    exact (Option.some.injEq _ _).mp hlast
  constructor
  · intro h
    have hp : u ∈ s :: p' := (List.dropLast_sublist _).subset h
    rcases List.mem_cons.mp hp with he | h'
    · exact absurd he hus
    · exact h'
  · intro h
    have hp : u ∈ s :: p' := List.mem_cons_of_mem s h
    have hsplit : (s :: p').dropLast ++ [(s :: p').getLast hne] = s :: p' :=
      List.dropLast_append_getLast hne
    rw [← hsplit] at hp
    rcases List.mem_append.mp hp with h1 | h2
    · exact h1
    · rw [hlast'] at h2
      exact absurd (List.mem_singleton.mp h2) hut

theorem augPath_skew (b : ℚ) (p : List String) (f : String → String → ℚ)
    (hf : ∀ u v, f u v = - f v u) :
    ∀ x y, augPath f p b x y = - augPath f p b y x := by
  intro x y
  rw [augPath_apply, augPath_apply, hf x y]
  ring

theorem augPath_capLe (c : String → String → ℚ) (b : ℚ) (p : List String)
    (f : String → String → ℚ) (hnd : p.Nodup)
    (hb0 : 0 ≤ b) (hble : ∀ q ∈ consecPairs p, b ≤ c q.1 q.2 - f q.1 q.2)
    (hcap : ∀ u v, f u v ≤ c u v) :
    ∀ x y, augPath f p b x y ≤ c x y := by
  intro x y
  rw [augPath_apply]
  by_cases hxy : (x, y) ∈ consecPairs p
  · have h1 : cnt (x, y) (consecPairs p) = 1 :=
      cnt_eq_one _ _ (consecPairs_nodup p hnd) hxy
    have h2 : cnt (y, x) (consecPairs p) = 0 :=
      cnt_eq_zero _ _ (consecPairs_antisymm x y p hnd hxy)
    rw [h1, h2]
    have hb := hble (x, y) hxy
    push_cast
    linarith
  · have h1 : cnt (x, y) (consecPairs p) = 0 := cnt_eq_zero _ _ hxy
    rw [h1]
    have h2 : (0 : ℚ) ≤ (cnt (y, x) (consecPairs p) : ℚ) := by positivity
    have h3 : 0 ≤ b * (cnt (y, x) (consecPairs p) : ℚ) := mul_nonneg hb0 h2
    have h4 := hcap x y
    push_cast
    linarith

theorem augment_preserves (c : String → String → ℚ) (V : List String) (s t : String)
    (f : String → String → ℚ) (p : List String)
    (hV : V.Nodup) (hs : s ∈ V)
    (hflow : IsFlow c V s t f)
    (hpath : findAugPath (resid c f) (V.erase s) s t = some p) :
    IsFlow c V s t (augPath f p (pathMin (resid c f) p)) := by
  obtain ⟨⟨p', hp'⟩, hlastq, hchain, hmemp, hndp⟩ :=
    findAugPathF_sound (resid c f) ((V.erase s).length + 1) (V.erase s) s t p hpath
  have hndA : (V.erase s).Nodup := hV.erase s
  have hsA : s ∉ V.erase s := hV.not_mem_erase
  have hnd : p.Nodup := hndp hndA hsA
  have hmemV : ∀ x ∈ p, x ∈ V := by
    intro x hx
    rcases hmemp x hx with rfl | hx'
    · exact hs
    · exact List.mem_of_mem_erase hx'
  have hb0 : 0 ≤ pathMin (resid c f) p := pathMin_nonneg _ p hchain
  have hble : ∀ q ∈ consecPairs p,
      pathMin (resid c f) p ≤ c q.1 q.2 - f q.1 q.2 := by
    intro q hq
    exact pathMin_le (resid c f) p q.1 q.2 hq
  refine ⟨augPath_skew _ p f hflow.skew,
    augPath_capLe c _ p f hnd hb0 hble hflow.capLe, ?_⟩
  intro u huV hus hut
  have hL1 : ∀ q ∈ consecPairs p, q.1 ∈ V := fun q hq =>
    hmemV q.1 (mem_of_mem_consecPairs q.1 q.2 p hq).1
  have hL2 : ∀ q ∈ consecPairs p, q.2 ∈ V := fun q hq =>
    hmemV q.2 (mem_of_mem_consecPairs q.1 q.2 p hq).2
  have hsplit : V.map (fun w => augPath f p (pathMin (resid c f) p) u w)
      = V.map (fun w => f u w
          + ((pathMin (resid c f) p) * (cnt (u, w) (consecPairs p) : ℚ)
            + (-(pathMin (resid c f) p)) * (cnt (w, u) (consecPairs p) : ℚ))) := by
    apply List.map_congr_left
    intro w _
    rw [augPath_apply]
    ring
  rw [hsplit, sum_map_add, sum_map_add, List.sum_map_mul_left, List.sum_map_mul_left]
  rw [sum_cnt_fst u (consecPairs p) V hV hL2, sum_cnt_snd u (consecPairs p) V hV hL1]
  rw [hflow.conserve u huV hus hut]
  rw [length_filter_fst_eq u p hnd, length_filter_snd_eq u p hnd]
  subst hp'
  have hiff := mem_dropLast_iff_mem_tail p' s t u hnd hlastq hus hut
  rw [if_congr hiff rfl rfl]
  ring

theorem flowZero_isFlow (c : String → String → ℚ) (V : List String) (s t : String)
    (hc : ∀ u v, 0 ≤ c u v) : IsFlow c V s t flowZero := by
  refine ⟨fun u v => by simp [flowZero], fun u v => ?_, fun u _ _ _ => by simp [flowZero]⟩
  simpa [flowZero] using hc u v

theorem ffLoop_invariant (c : String → String → ℚ) (V : List String) (s t : String)
    (hV : V.Nodup) (hs : s ∈ V) :
    ∀ (fuel : Nat) (f g : String → String → ℚ),
      IsFlow c V s t f → ffLoop c V s t fuel f = some g →
      IsFlow c V s t g ∧ findAugPath (resid c g) (V.erase s) s t = none := by
  intro fuel
  induction fuel with
  | zero => intro f g _ h; cases h
  | succ n ih =>
    intro f g hf h
    rw [ffLoop] at h
    cases hfind : findAugPath (resid c f) (V.erase s) s t with
    | none =>
      rw [hfind] at h
      have hfg : f = g := by
        simpa [Option.elim] using h
      constructor
      · rw [← hfg]; exact hf
      · rw [← hfg]; exact hfind
    | some p =>
      rw [hfind] at h
      simp only [Option.elim] at h
      exact ih (augPath f p (pathMin (resid c f) p)) g
        (augment_preserves c V s t f p hV hs hf hfind) h

end FlowSolver

/-! ### Solver lemmas: max-flow / min-cut duality at convergence -/

namespace FlowSolver

theorem sum_map_neg_q (l : List String) (f : String → ℚ) :
    (l.map (fun x => - f x)).sum = - (l.map f).sum := by
  induction l with
  | nil => simp
  | cons x xs ih => simp [ih]; ring

theorem sum_eq_single_list (S : List String) (s : String) (F : String → ℚ) :
    S.Nodup → s ∈ S → (∀ u ∈ S, u ≠ s → F u = 0) →
    (S.map F).sum = F s := by
  induction S with
  | nil => intro _ h _; cases h
  | cons x xs ih =>
    intro hnd hs h0
    rcases List.nodup_cons.mp hnd with ⟨hx, hnd'⟩
    rcases List.mem_cons.mp hs with rfl | hm
    · have hz : ∀ u ∈ xs, F u = 0 := by
        intro u hu
        apply h0 u (List.mem_cons_of_mem _ hu)
        intro he
        rw [he] at hu
        exact hx hu
      rw [List.map_cons, List.sum_cons]
      have hmz : xs.map F = xs.map (fun _ => (0 : ℚ)) :=
        List.map_congr_left (fun u hu => hz u hu)
      rw [hmz]
      simp
    · have hx0 : F x = 0 := by
        apply h0 x (List.mem_cons_self _ _)
        intro he
        apply hx
        rw [he]
        exact hm
      rw [List.map_cons, List.sum_cons, hx0,
        ih hnd' hm (fun u hu hus => h0 u (List.mem_cons_of_mem _ hu) hus)]
      ring

theorem sum_split (q : String → Bool) (h : String → ℚ) :
    ∀ V : List String,
      (V.map h).sum
        = ((V.filter q).map h).sum + ((V.filter (fun v => ! q v)).map h).sum := by
  intro V
  induction V with
  | nil => simp
  | cons x xs ih =>
    cases hx : q x with
    | true =>
      simp only [List.map_cons, List.sum_cons, List.filter_cons, hx, ih,
        Bool.not_true]
      simp
      ring
    | false =>
      simp only [List.map_cons, List.sum_cons, List.filter_cons, hx, ih,
        Bool.not_false]
      simp
      ring

theorem double_sum_skew (g : String → String → ℚ)
    (hskew : ∀ u v, g u v = - g v u) :
    ∀ S : List String, (S.map (fun u => (S.map (fun v => g u v)).sum)).sum = 0 := by
  intro S
  induction S with
  | nil => rfl
  | cons x xs ih =>
    rw [List.map_cons, List.sum_cons]
    have h1 : (List.map (fun v => g x v) (x :: xs)).sum
        = g x x + (xs.map (fun v => g x v)).sum := by
      rw [List.map_cons, List.sum_cons]
    have hxx : g x x = 0 := by
      have := hskew x x
      linarith
    have h2 : xs.map (fun u => ((x :: xs).map (fun v => g u v)).sum)
        = xs.map (fun u => g u x + (xs.map (fun v => g u v)).sum) := by
      apply List.map_congr_left
      intro u _
      rw [List.map_cons, List.sum_cons]
    rw [h1, hxx, h2, sum_map_add, ih]
    have h3 : xs.map (fun u => g u x) = xs.map (fun u => - g x u) :=
      List.map_congr_left (fun u _ => hskew u x)
    rw [h3, sum_map_neg_q]
    ring

theorem flow_eq_cut_general (c : String → String → ℚ) (V S T : List String)
    (s t : String) (g : String → String → ℚ)
    (hg : IsFlow c V s t g)
    (hndS : S.Nodup) (hsS : s ∈ S) (htS : t ∉ S)
    (hfilterS : V.filter (fun v => decide (v ∈ S)) = S)
    (hTdef : T = V.filter (fun v => decide (v ∉ S)))
    (hcross : ∀ u ∈ S, ∀ v ∈ T, g u v = c u v) :
    flowValue V g s = cutCapacity c S T := by
  have hSV : ∀ u ∈ S, u ∈ V := by
    intro u hu
    rw [← hfilterS] at hu
    exact (List.mem_filter.mp hu).1
  have hrow : ∀ u : String, (V.map (fun v => g u v)).sum
      = (S.map (fun v => g u v)).sum + (T.map (fun v => g u v)).sum := by
    intro u
    have hq := sum_split (fun v => decide (v ∈ S)) (fun v => g u v) V
    rw [hfilterS] at hq
    have hT' : V.filter (fun v => ! decide (v ∈ S)) = T := by
      rw [hTdef]
      apply List.filter_congr
      intro v _
      rw [decide_not]
    rw [hT'] at hq
    exact hq
  have hzero : ∀ u ∈ S, u ≠ s → (V.map (fun v => g u v)).sum = 0 := by
    intro u hu hus
    have hut : u ≠ t := by
      intro he
      apply htS
      rw [← he]
      exact hu
    exact hg.conserve u (hSV u hu) hus hut
  have hA : (S.map (fun u => (V.map (fun v => g u v)).sum)).sum
      = (V.map (fun v => g s v)).sum :=
    sum_eq_single_list S s _ hndS hsS hzero
  have hB : S.map (fun u => (V.map (fun v => g u v)).sum)
      = S.map (fun u => (S.map (fun v => g u v)).sum + (T.map (fun v => g u v)).sum) :=
    List.map_congr_left (fun u _ => hrow u)
  have hC : (S.map (fun u => (T.map (fun v => g u v)).sum)).sum
      = (S.map (fun u => (T.map (fun v => c u v)).sum)).sum := by
    apply congrArg
    apply List.map_congr_left
    intro u hu
    apply congrArg
    apply List.map_congr_left
    intro v hv
    exact hcross u hu v hv
  unfold flowValue cutCapacity
  rw [← hA, hB, sum_map_add, double_sum_skew g hg.skew S, hC]
  ring

theorem converged_duality (c : String → String → ℚ) (V : List String) (s t : String)
    (hV : V.Nodup) (hs : s ∈ V)
    (g : String → String → ℚ) (hg : IsFlow c V s t g)
    (hnone : findAugPath (resid c g) (V.erase s) s t = none) :
    flowValue V g s
      = cutCapacity c (reachable c V s g)
          (V.filter (fun v => decide (v ∉ reachable c V s g))) := by
  have hmemS : ∀ v, v ∈ reachable c V s g ↔
      v ∈ V ∧ (findAugPath (resid c g) (V.erase s) s v).isSome = true := by
    intro v
    unfold reachable
    exact List.mem_filter
  have hfilterS : V.filter (fun v => decide (v ∈ reachable c V s g))
      = reachable c V s g := by
    conv_rhs => rw [reachable]
    apply List.filter_congr
    intro v hv
    by_cases hp : (findAugPath (resid c g) (V.erase s) s v).isSome = true
    · simp [hmemS, hv, hp]
    · simp [hmemS, hp]
  have hss : s ∈ reachable c V s g := by
    rw [hmemS]
    refine ⟨hs, ?_⟩
    rw [findAugPath, findAugPathF, if_pos rfl]
    rfl
  have hts : t ∉ reachable c V s g := by
    rw [hmemS]
    rintro ⟨-, hsome⟩
    rw [hnone] at hsome
    simp at hsome
  have hcross : ∀ u ∈ reachable c V s g,
      ∀ v ∈ V.filter (fun v => decide (v ∉ reachable c V s g)), g u v = c u v := by
    intro u hu v hv
    rw [List.mem_filter] at hv
    obtain ⟨hvV, hvd⟩ := hv
    have hvS : v ∉ reachable c V s g := of_decide_eq_true hvd
    by_contra hne
    have hlt : g u v < c u v := lt_of_le_of_ne (hg.capLe u v) hne
    have hres : 0 < resid c g u v := by
      unfold resid
      linarith
    rw [hmemS] at hu
    obtain ⟨huV, husome⟩ := hu
    have hrp : RPath (resid c g) (V.erase s) s u :=
      RPath.of_findAugPathF (resid c g) ((V.erase s).length + 1) (V.erase s) s u husome
    have hvs : v ≠ s := by
      intro he
      rw [he] at hvS
      exact hvS hss
    have hvA : v ∈ V.erase s := (List.mem_erase_of_ne hvs).mpr hvV
    have hrp2 : RPath (resid c g) (V.erase s) s v :=
      RPath.extend (resid c g) hrp v hres hvA
    have hsome2 := RPath.complete (resid c g) hrp2 ((V.erase s).length + 1)
      (Nat.lt_succ_self _)
    apply hvS
    rw [hmemS]
    refine ⟨hvV, ?_⟩
    rw [findAugPath]
    exact hsome2
  exact flow_eq_cut_general c V (reachable c V s g)
    (V.filter (fun v => decide (v ∉ reachable c V s g))) s t g hg
    (hV.filter _) hss hts hfilterS rfl hcross

end FlowSolver

/-! ### Capacity nonnegativity and cut-edge collection -/

theorem observationSpan_pos (recs : List LogRecord) : 0 < observationSpan recs := by
  rw [observationSpan]
  by_cases h : (timestampsOf recs).isEmpty
  · rw [if_pos h]
    norm_num
  · rw [if_neg h]
    by_cases hd : listMax (timestampsOf recs) - listMin (timestampsOf recs) ≤ 0
    · rw [if_pos hd]
      norm_num
    · rw [if_neg hd]
      linarith [not_le.mp hd]

theorem mkEdgeData_capAttr_nonneg (duration : ℚ) (hd : 0 < duration)
    (a : EdgeAccum) (attr : CapacityAttr) :
    0 ≤ (mkEdgeData duration a).capAttr attr := by
  have hthr : 0 ≤ (a.count : ℚ) / duration :=
    div_nonneg (Nat.cast_nonneg _) (le_of_lt hd)
  have hlat : 0 ≤ (mkEdgeData duration a).capacity_latency := by
    show 0 ≤ (if 0 < a.times.sum / (a.times.length : ℚ)
        then 1 / (a.times.sum / (a.times.length : ℚ)) else 0)
    split_ifs with h
    · positivity
    · exact le_refl 0
  cases attr
  · show 0 ≤ (if 0 < (a.count : ℚ) / duration then (a.count : ℚ) / duration
        else (mkEdgeData duration a).capacity_latency)
    split_ifs with h
    · exact le_of_lt h
    · exact hlat
  · exact hthr
  · exact hlat

theorem capFun_nonneg (recs : List LogRecord) (attr : CapacityAttr) :
    ∀ u v, 0 ≤ (GraphBuilder.build_graph recs).capFun attr u v := by
  intro u v
  unfold DiGraph.capFun
  rw [build_edgeData?]
  cases h : lookupAccum (accumEdges recs) (u, v) with
  | none => simp
  | some a =>
    simp only [Option.map_some', Option.elim]
    exact mkEdgeData_capAttr_nonneg _ (observationSpan_pos recs) a attr

theorem mem_successors (G : DiGraph) (u v : String) :
    v ∈ G.successors u ↔ (u, v) ∈ G.edges.map Prod.fst := by
  unfold DiGraph.successors
  constructor
  · intro h
    rw [List.mem_map] at h
    obtain ⟨e, he, hev⟩ := h
    rw [List.mem_filter] at he
    obtain ⟨heE, heu⟩ := he
    rw [List.mem_map]
    refine ⟨e, heE, ?_⟩
    have hu : e.1.1 = u := by simpa using heu
    have hsplit : e.1 = (e.1.1, e.1.2) := rfl
    rw [hsplit, hu, hev]
  · intro h
    rw [List.mem_map] at h
    obtain ⟨e, heE, hev⟩ := h
    rw [List.mem_map]
    refine ⟨e, ?_, congrArg Prod.snd hev⟩
    rw [List.mem_filter]
    refine ⟨heE, ?_⟩
    have hu : e.1.1 = u := congrArg Prod.fst hev
    simp [hu]

theorem mem_collectCut (G : DiGraph) (S T : List String) (e : String × String) :
    e ∈ collectCut G S T
      ↔ e.1 ∈ S ∧ e.2 ∈ T ∧ e ∈ G.edges.map Prod.fst := by
  unfold collectCut
  rw [List.mem_flatMap]
  constructor
  · rintro ⟨u, huS, hmem⟩
    rw [List.mem_map] at hmem
    obtain ⟨v, hv, hev⟩ := hmem
    subst hev
    rw [List.mem_filter] at hv
    obtain ⟨hvsucc, hvT⟩ := hv
    exact ⟨huS, of_decide_eq_true hvT, (mem_successors G u v).mp hvsucc⟩
  · rintro ⟨h1, h2, h3⟩
    refine ⟨e.1, h1, ?_⟩
    rw [List.mem_map]
    refine ⟨e.2, ?_, rfl⟩
    rw [List.mem_filter]
    exact ⟨(mem_successors G e.1 e.2).mpr h3, decide_eq_true h2⟩

/-- **C1** (spec-modelled solver): whenever `GraphAnalyzer.max_flow` on a built
graph returns a flow value (the Ford-Fulkerson loop converged), `min_cut` on
the same arguments returns a cut whose value equals the flow value exactly —
hence within the `1e-6` tolerance the spec allows — and whose cut-edge
collection (the loop of `analyze_time_windows`, bottleneck.py lines 69-73)
holds exactly the original-graph edges `(u, v)` with `u` in the returned
reachable set `S` and `v` in the complement set `T`. -/
theorem maxflow_mincut_duality (recs : List LogRecord) (source sink : String)
    (attr : CapacityAttr) (fuel : Nat) (fv : ℚ)
    (hs : source ∈ (GraphBuilder.build_graph recs).nodes)
    (hflow : GraphAnalyzer.max_flow (GraphBuilder.build_graph recs) source sink attr fuel
        = some fv) :
    ∃ cv S T,
      GraphAnalyzer.min_cut (GraphBuilder.build_graph recs) source sink attr fuel
          = some (cv, S, T)
      ∧ cv = fv
      ∧ |cv - fv| ≤ 1 / 1000000
      ∧ (∀ e : String × String,
          e ∈ collectCut (GraphBuilder.build_graph recs) S T
            ↔ e.1 ∈ S ∧ e.2 ∈ T
              ∧ e ∈ (GraphBuilder.build_graph recs).edges.map Prod.fst) := by
  unfold GraphAnalyzer.max_flow at hflow
  obtain ⟨g, hloop, hval⟩ := Option.map_eq_some'.mp hflow
  have hV : (GraphBuilder.build_graph recs).nodes.Nodup := nodesOf_nodup recs
  have hcnn : ∀ u v, 0 ≤ (GraphBuilder.build_graph recs).capFun attr u v :=
    capFun_nonneg recs attr
  have hzero : IsFlow ((GraphBuilder.build_graph recs).capFun attr)
      (GraphBuilder.build_graph recs).nodes source sink FlowSolver.flowZero :=
    FlowSolver.flowZero_isFlow _ _ _ _ hcnn
  obtain ⟨hg, hnone⟩ := FlowSolver.ffLoop_invariant
    ((GraphBuilder.build_graph recs).capFun attr)
    (GraphBuilder.build_graph recs).nodes source sink hV hs fuel
    FlowSolver.flowZero g hzero hloop
  have hdual := FlowSolver.converged_duality
    ((GraphBuilder.build_graph recs).capFun attr)
    (GraphBuilder.build_graph recs).nodes source sink hV hs g hg hnone
  refine ⟨FlowSolver.cutCapacity ((GraphBuilder.build_graph recs).capFun attr)
      (FlowSolver.reachable ((GraphBuilder.build_graph recs).capFun attr)
        (GraphBuilder.build_graph recs).nodes source g)
      ((GraphBuilder.build_graph recs).nodes.filter (fun v => decide
        (v ∉ FlowSolver.reachable ((GraphBuilder.build_graph recs).capFun attr)
          (GraphBuilder.build_graph recs).nodes source g))),
    FlowSolver.reachable ((GraphBuilder.build_graph recs).capFun attr)
      (GraphBuilder.build_graph recs).nodes source g,
    (GraphBuilder.build_graph recs).nodes.filter (fun v => decide
      (v ∉ FlowSolver.reachable ((GraphBuilder.build_graph recs).capFun attr)
        (GraphBuilder.build_graph recs).nodes source g)), ?_, ?_, ?_, ?_⟩
  · unfold GraphAnalyzer.min_cut
    rw [hloop]
    rfl
  · rw [← hdual, ← hval]
  · rw [← hdual, ← hval]
    simp
  · intro e
    exact mem_collectCut (GraphBuilder.build_graph recs) _ _ e

/-- Witness for C1: the §8 scenario A→B (10 ms at t=0), B→C (20 ms at t=1):
the solver converges with flow value 1 and the duality conclusion holds. -/
theorem maxflow_mincut_duality_witness :
    "A" ∈ (GraphBuilder.build_graph
        [⟨some 0, "A", "a", "B", "b", 10⟩, ⟨some 1, "B", "b", "C", "c", 20⟩]).nodes
    ∧ GraphAnalyzer.max_flow
        (GraphBuilder.build_graph
          [⟨some 0, "A", "a", "B", "b", 10⟩, ⟨some 1, "B", "b", "C", "c", 20⟩])
        "A" "C" .capacity 5 = some 1
    ∧ (∃ cv S T,
        GraphAnalyzer.min_cut
            (GraphBuilder.build_graph
              [⟨some 0, "A", "a", "B", "b", 10⟩, ⟨some 1, "B", "b", "C", "c", 20⟩])
            "A" "C" .capacity 5
          = some (cv, S, T)
        ∧ cv = 1
        ∧ |cv - 1| ≤ 1 / 1000000
        ∧ (∀ e : String × String,
            e ∈ collectCut (GraphBuilder.build_graph
                [⟨some 0, "A", "a", "B", "b", 10⟩, ⟨some 1, "B", "b", "C", "c", 20⟩]) S T
              ↔ e.1 ∈ S ∧ e.2 ∈ T
                ∧ e ∈ (GraphBuilder.build_graph
                    [⟨some 0, "A", "a", "B", "b", 10⟩,
                     ⟨some 1, "B", "b", "C", "c", 20⟩]).edges.map Prod.fst)) := by
  have hs : "A" ∈ (GraphBuilder.build_graph
      [⟨some 0, "A", "a", "B", "b", 10⟩, ⟨some 1, "B", "b", "C", "c", 20⟩]).nodes := by
    simp [GraphBuilder.build_graph, nodesOf, insertNode]
  have hf : GraphAnalyzer.max_flow
      (GraphBuilder.build_graph
        [⟨some 0, "A", "a", "B", "b", 10⟩, ⟨some 1, "B", "b", "C", "c", 20⟩])
      "A" "C" .capacity 5 = some 1 := by
    simp [GraphBuilder.build_graph, accumEdges, addCall, observationSpan, timestampsOf,
      listMax, listMin, nodesOf, insertNode, mkEdgeData, GraphAnalyzer.max_flow,
      FlowSolver.ffLoop, FlowSolver.findAugPath, FlowSolver.findAugPathF,
      FlowSolver.resid, FlowSolver.flowZero, FlowSolver.pathMin, FlowSolver.augPath,
      FlowSolver.augEdge, FlowSolver.flowValue, DiGraph.capFun, DiGraph.edgeData?,
      EdgeData.capAttr, FlowSolver.firstSome?, assocFind?, List.erase_cons,
      List.filterMap_cons]
  exact ⟨hs, hf, maxflow_mincut_duality
    [⟨some 0, "A", "a", "B", "b", 10⟩, ⟨some 1, "B", "b", "C", "c", 20⟩]
    "A" "C" .capacity 5 1 hs hf⟩
